import Mathlib

/-!
Shallow embedding of the wryun/joss-language interpreter core (TypeScript):
the tokenizer, the precedence-climbing expression parser with the JOSS
conditional and range forms (src/unnamed/part_000, "expression.ts"), the
verb/command parser (the current parse module, second half of
src/tokenise.ts), and the evaluator over the mutable environment
(src/joss.ts: variables, arrays, program store).

Modelling conventions:
- JavaScript numbers are modelled as rationals (ℚ).  The arithmetic helpers
  below are written with mkRat / Rat.divInt so that concrete runs reduce
  inside the kernel; lemmas in the theorem section identify them with the
  Mathlib field operations.  IEEE NaN is a distinct value constructor;
  IEEE infinities do not arise in any verified property and collapse to NaN where
  JS would produce them (division by zero), with a comment at the spot.
- Mutable objects (the Joss environment, JossArray) become explicit state
  passed through the evaluator; `Record<string, T>` becomes an association
  list with JS-object semantics (update in place, lookup by key).
- Fallible evaluation returns `Except JsErr`; a thrown JS error is
  `JsErr.err msg`.  All recursion that is unbounded in the source
  (closure calls, Do of stored steps, parser loops, range generators) is
  fuel-indexed; exhausted fuel is the separate `JsErr.outOfFuel`, never
  confused with a genuine error of the program.
-/

/-- A thrown JavaScript error (`.err`), or exhaustion of the fuel that makes
the embedded recursion total (`.outOfFuel`). -/
inductive JsErr where
  | err (msg : String)
  | outOfFuel
  deriving DecidableEq, Repr

/-- Lookup in a JS object modelled as association list (keys are unique by
construction of `updateAssoc`). -/
def lookupAssoc {α : Type} : List (String × α) → String → Option α
  | [], _ => none
  | (k, v) :: rest, s => if k = s then some v else lookupAssoc rest s

/-- `obj[k] = v` on a JS object: overwrite in place, or append a new key. -/
def updateAssoc {α : Type} : List (String × α) → String → α → List (String × α)
  | [], k, v => [(k, v)]
  | (k', v') :: rest, k, v =>
    if k' = k then (k, v) :: rest else (k', v') :: updateAssoc rest k v

/-- `delete obj[k]` on a JS object. -/
def deleteAssoc {α : Type} : List (String × α) → String → List (String × α)
  | [], _ => []
  | (k', v') :: rest, k =>
    if k' = k then deleteAssoc rest k else (k', v') :: deleteAssoc rest k

/-- JS `a + b` on (finite) numbers, written with `mkRat` so the kernel can
evaluate it; `ratAdd_eq` below shows it is rational addition. -/
def ratAdd (a b : ℚ) : ℚ := mkRat (a.num * b.den + b.num * a.den) (a.den * b.den)

/-- JS `a - b` on numbers; equals rational subtraction (`ratSub_eq`). -/
def ratSub (a b : ℚ) : ℚ := mkRat (a.num * b.den - b.num * a.den) (a.den * b.den)

/-- JS `a * b` on numbers; equals rational multiplication (`ratMul_eq`). -/
def ratMul (a b : ℚ) : ℚ := mkRat (a.num * b.num) (a.den * b.den)

/-- JS `a / b` for `b ≠ 0`; equals rational division (`ratDiv_eq`). -/
def ratDiv (a b : ℚ) : ℚ := Rat.divInt (a.num * b.den) (a.den * b.num)

/-- digit character, as in the tokenizer character class `[0-9]`. -/
def isDigitChar (c : Char) : Bool := '0' ≤ c && c ≤ '9'

/-- letter, as in the tokenizer character class `[A-Za-z]`. -/
def isAlphaChar (c : Char) : Bool := ('A' ≤ c && c ≤ 'Z') || ('a' ≤ c && c ≤ 'z')

/-- word character `\w`. -/
def isWordChar (c : Char) : Bool := isAlphaChar c || isDigitChar c || c = '_'

/-- numeric value of a digit string. -/
def digitsVal (l : List Char) : ℕ :=
  l.foldl (fun acc c => 10 * acc + (c.toNat - '0'.toNat)) 0

/-- split a character list on `'.'`, as JS `s.split('.')`. -/
def splitDot : List Char → List (List Char)
  | [] => [[]]
  | c :: rest =>
    let r := splitDot rest
    if c = '.' then [] :: r
    else
      match r with
      | [] => [[c]]
      | h :: t => (c :: h) :: t

/-- JS `Number(s)` restricted to the digit/decimal-point strings that arise
as part/step names and numeric literals; `none` is NaN.  (The full JS
`Number` grammar — signs, exponents, hex, whitespace — never arises from the
tokenizer or from `part.step` keys and is not modelled.) -/
def jsNumber (s : String) : Option ℚ :=
  match splitDot s.data with
  | [a] => if a ≠ [] && a.all isDigitChar then some (digitsVal a) else none
  | [a, b] =>
    if (a.all isDigitChar && b.all isDigitChar) && (a ≠ [] || b ≠ []) then
      some (mkRat (digitsVal a * 10 ^ b.length + digitsVal b) (10 ^ b.length))
    else none
  | _ => none

/-- decimal digits of the fractional part `r/d` (`0 < r < d`), produced by
long division; 30 digits of fuel cover every value printed below. -/
def fracDigits : ℕ → ℕ → ℕ → String
  | 0, _, _ => ""
  | f+1, r, d =>
    let r10 := r * 10
    let r' := r10 % d
    Nat.repr (r10 / d) ++ (if r' = 0 then "" else fracDigits f r' d)

/-- JS `n.toString()` for a number.  Exact for integers and terminating
decimals (every value printed below is an integer); a non-terminating expansion is
truncated at 30 digits where JS would print the rounded double — nothing below
reaches that case, since doubles with non-terminating decimal expansions are
not exact rationals in the first place. -/
def jsNumToString (q : ℚ) : String :=
  let sign := if q < 0 then "-" else ""
  let n := q.num.natAbs
  let d := q.den
  if d = 1 then sign ++ Nat.repr n
  else sign ++ Nat.repr (n / d) ++ "." ++ fracDigits 30 (n % d) d

/-- Token kinds of the tokenizer.  The revision of tokenise.ts shipped under
src/ predates the expression parser and still has a single PAREN kind; the
current parser requires the open/close bracket, colon and semicolon kinds
listed in the spec (section 3), which this enum follows. -/
inductive TokenType where
  | ID | VAR | NUM | OP | STR | OPEN_BRACKET | CLOSE_BRACKET
  | COMMA | SEMICOLON | COLON | PERIOD | OTHER | END
  deriving DecidableEq, Repr

/-- printable name of a token kind (the TS renders its numeric enum value;
the numbering of the current enum is not in src/, so names are used). -/
def TokenType.name : TokenType → String
  | .ID => "ID"
  | .VAR => "VAR"
  | .NUM => "NUM"
  | .OP => "OP"
  | .STR => "STR"
  | .OPEN_BRACKET => "OPEN_BRACKET"
  | .CLOSE_BRACKET => "CLOSE_BRACKET"
  | .COMMA => "COMMA"
  | .SEMICOLON => "SEMICOLON"
  | .COLON => "COLON"
  | .PERIOD => "PERIOD"
  | .OTHER => "OTHER"
  | .END => "END"

structure Token where
  type : TokenType
  raw : String
  deriving DecidableEq, Repr

/-- The END sentinel the TokenIterator returns past the end of input. -/
def endToken : Token := ⟨.END, ""⟩

/-- keywords lexed as ID tokens: the verbs, plus the modifier words the
command parser requires as ID ('if', 'times'). -/
def ID_KEYWORDS : List String := ["Type", "Set", "Let", "Do", "if", "times"]

/-- word operators of the binary-operator table ('or', 'and'); the parser
accepts operators only as OP tokens. -/
def OP_WORDS : List String := ["or", "and"]

/-- first keyword of `kws` that is a prefix of `cs` (JS regex alternation
picks the first matching alternative). -/
def matchKw : List String → List Char → Option (String × List Char)
  | [], _ => none
  | kw :: kws, cs =>
    if kw.data.isPrefixOf cs then some (kw, cs.drop kw.data.length)
    else matchKw kws cs

/-- STR form `/".*"/`: greedy to the last quote of the line.  Given the
characters after an opening quote, returns (raw token text, remainder) when
a closing quote exists. -/
def strTokenSplit (cs : List Char) : Option (String × List Char) :=
  if cs.contains '"' then
    let tailLen := (cs.reverse.takeWhile (fun c => c ≠ '"')).length
    let contentLen := cs.length - tailLen - 1
    some (String.mk ('"' :: cs.take contentLen ++ ['"']), cs.drop (contentLen + 1))
  else none

/-- lex one token from a nonempty character stream (c :: rest). -/
def lexOne (c : Char) (rest : List Char) : Token × List Char :=
  match matchKw ID_KEYWORDS (c :: rest) with
  | some (kw, rem) => (⟨.ID, kw⟩, rem)
  | none =>
  match matchKw OP_WORDS (c :: rest) with
  | some (kw, rem) => (⟨.OP, kw⟩, rem)
  | none =>
  if isAlphaChar c then
    let w := rest.takeWhile isWordChar
    (⟨.VAR, String.mk (c :: w)⟩, rest.drop w.length)
  else if isDigitChar c then
    let w := rest.takeWhile isDigitChar
    let rest' := rest.drop w.length
    match rest' with
    | '.' :: d :: rest'' =>
      if isDigitChar d then
        let w2 := rest''.takeWhile isDigitChar
        (⟨.NUM, String.mk (c :: w ++ '.' :: d :: w2)⟩, rest''.drop w2.length)
      else (⟨.NUM, String.mk (c :: w)⟩, rest')
    | _ => (⟨.NUM, String.mk (c :: w)⟩, rest')
  else if (c = '<' || c = '>') && rest.headD ' ' = '=' then
    (⟨.OP, String.mk [c, '=']⟩, rest.tail)
  else if [ '-', '+', '*', '/', '^', '=', '<', '>'].contains c then
    (⟨.OP, String.mk [c]⟩, rest)
  else if c = '"' then
    match strTokenSplit rest with
    | some (raw, rem) => (⟨.STR, raw⟩, rem)
    | none => (⟨.OTHER, String.mk [c]⟩, rest)
  else if c = '(' || c = '[' then (⟨.OPEN_BRACKET, String.mk [c]⟩, rest)
  else if c = ')' || c = ']' then (⟨.CLOSE_BRACKET, String.mk [c]⟩, rest)
  else if c = ',' then (⟨.COMMA, ","⟩, rest)
  else if c = ';' then (⟨.SEMICOLON, ";"⟩, rest)
  else if c = ':' then (⟨.COLON, ":"⟩, rest)
  else if c = '.' then (⟨.PERIOD, "."⟩, rest)
  else (⟨.OTHER, String.mk [c]⟩, rest)

/-- the scanning loop of `_tokenise`: skip whitespace, lex token by token.
Each step consumes at least one character, so `length + 1` fuel always
suffices. -/
def lexLoop : ℕ → List Char → List Token
  | 0, _ => []
  | _, [] => []
  | f+1, c :: rest =>
    if c.isWhitespace then lexLoop f rest
    else
      let (t, rem) := lexOne c rest
      t :: lexLoop f rem

/-- JS `s.trim()`. -/
def jsTrim (cs : List Char) : List Char :=
  ((cs.dropWhile Char.isWhitespace).reverse.dropWhile Char.isWhitespace).reverse

/-- Modelled from the spec: the current tokenise.ts of the repository (the
one the current parser compiles against, with OPEN_BRACKET / CLOSE_BRACKET /
COLON / SEMICOLON token kinds and ID coverage of all verbs) is absent from
src/; only an earlier revision is present.  The structure here follows that
earlier `_tokenise` exactly where it is still current — trim, the
empty/leading-`*`/trailing-`*` comment forms yielding zero tokens, ordered
longest-match alternatives, whitespace discarded — and follows the spec
(sections 3, 4.1) for what the earlier revision lacks: the bracket, colon
and semicolon kinds, the keyword list, and a NUM form that leaves a
command-terminating period to be its own PERIOD token. -/
def tokenise (s : String) : List Token :=
  let t := jsTrim s.data
  if t.isEmpty || t.headD ' ' = '*' || t.getLastD ' ' = '*' then []
  else lexLoop (t.length + 1) t

/-- Expression AST of expression.ts.  `var` conflates plain variable, array
index and function call, disambiguated at evaluation time, exactly as the
source's VariableExpression.  A BinaryExpression in the source stores the
operator's `fn` closure resolved at parse time from the immutable
BINARY_OPERATORS table; the embedding stores the operator name and resolves
it from the same table at evaluation, which is observationally identical. -/
inductive Expression where
  | number (num : ℚ)
  | var (v : String) (indices : List Expression)
  | binary (op : String) (lhs rhs : Expression)
  | conditional (conditionResults : List (Expression × Expression))
      (result : Expression)

/-- Runtime values (`type Result = number | boolean | JossFn` in joss.ts,
with NaN split out of number as explained in the header).  Callables carry
no heap: a user function is its argument names and body (Let.eval's
closure), an array accessor is resolved by name at application time (the
source binds the live array object at lookup; expression evaluation never
mutates the environment, so the two agree), and a built-in is its name in
the FUNCTIONS table. -/
inductive Result where
  | num (q : ℚ)
  | nan
  | bool (b : Bool)
  | closure (argNames : List String) (body : Expression)
  | arrAcc (name : String)
  | builtin (name : String)

/-- StringExpression of the Type verb: a numeric expression rendered to
text (Maths) or a quoted literal. -/
inductive StringExpression where
  | maths (expression : Expression)
  | quoted (val : String)

/-- One term of a ValueRange: what addSingleValueGenerator and
addRangeGenerator respectively close over. -/
inductive RangeTerm where
  | single (e : Expression)
  | steprange (start step stop : Expression)

/-- ValueRange: the ordered generator list. -/
abbrev ValueRange := List RangeTerm

inductive Verb where
  | noop
  | typeV (expressions : List StringExpression)
  | setV (target : String × List Expression) (expression : Expression)
  | letV (target : String) (argNames : List String) (expression : Expression)
  | doV (part : String) (step : Option String) (times : Option Expression)
      (forMod : Option (String × ValueRange))

/-- Command = verb + optional if-modifier expression. -/
structure Command where
  verb : Verb
  ifmodifier : Option Expression

/-- JossArray of joss.ts: record keyed by the stringified indices tuple,
current dimensionality, sparseness flag. -/
structure JossArray where
  dimensions : ℕ
  value : List (String × Result)
  sparse : Bool

/-- The Joss environment (joss.ts).  The output sink is modelled as the
string written so far; the source field `variables` is `vars` here because
`variables` is reserved in Lean. -/
structure Joss where
  vars : List (String × Result)
  arrays : List (String × JossArray)
  program : List (String × Command)
  programParts : List (String × List String)
  output : String

def Joss.fresh : Joss := ⟨[], [], [], [], ""⟩

/-- JS `Boolean(v)`. -/
def jsToBool : Result → Bool
  | .num q => decide (q ≠ 0)
  | .nan => false
  | .bool b => b
  | _ => true

/-- JS `Number(v)`; `none` is NaN (functions coerce to NaN). -/
def jsToNum : Result → Option ℚ
  | .num q => some q
  | .nan => none
  | .bool b => some (if b then 1 else 0)
  | _ => none

/-- JS loose equality `a == b` on the value kinds that occur: numbers and
booleans compare after numeric coercion of the boolean; NaN is unequal to
everything.  JS compares functions by object identity, which a stateless
embedding cannot express; nothing below compares callables, and they compare
unequal here. -/
def jsEq : Result → Result → Bool
  | .num a, .num b => decide (a = b)
  | .bool a, .bool b => a = b
  | .num a, .bool b => decide (a = (if b then 1 else 0))
  | .bool a, .num b => decide ((if a then (1 : ℚ) else 0) = b)
  | _, _ => false

structure BinaryOperator where
  prec : ℕ
  fn : Result → Result → Result

/-- an arithmetic operator: both operands coerced to number, NaN
propagates. -/
def numBinop (f : ℚ → ℚ → ℚ) (a b : Result) : Result :=
  match jsToNum a, jsToNum b with
  | some x, some y => .num (f x y)
  | _, _ => .nan

/-- a comparison operator: both operands coerced to number; any NaN makes
the comparison false. -/
def cmpBinop (f : ℚ → ℚ → Bool) (a b : Result) : Result :=
  match jsToNum a, jsToNum b with
  | some x, some y => .bool (f x y)
  | _, _ => .bool false

/-- JS division; division by zero yields an IEEE infinity (or NaN for 0/0),
which the rational model collapses to nan — nothing below divides by zero. -/
def jsDiv (a b : Result) : Result :=
  match jsToNum a, jsToNum b with
  | some x, some y => if y = 0 then .nan else .num (ratDiv x y)
  | _, _ => .nan

/-- Expression.BINARY_OPERATORS of expression.ts (the current table: `=`
not `==`).  Note `or` and `and` have the same fn, both computing the
conjunction of the boolean coercions. -/
def BINARY_OPERATORS : String → Option BinaryOperator
  | "or" => some ⟨0, fun a b => .bool (jsToBool a && jsToBool b)⟩
  | "and" => some ⟨1, fun a b => .bool (jsToBool a && jsToBool b)⟩
  | "=" => some ⟨2, fun a b => .bool (jsEq a b)⟩
  | "!=" => some ⟨2, fun a b => .bool (!(jsEq a b))⟩
  | "<" => some ⟨3, cmpBinop (fun x y => decide (x < y))⟩
  | ">" => some ⟨3, cmpBinop (fun x y => decide (x > y))⟩
  | "<=" => some ⟨3, cmpBinop (fun x y => decide (x ≤ y))⟩
  | ">=" => some ⟨3, cmpBinop (fun x y => decide (x ≥ y))⟩
  | "+" => some ⟨4, numBinop ratAdd⟩
  | "-" => some ⟨4, numBinop ratSub⟩
  | "/" => some ⟨5, jsDiv⟩
  | "*" => some ⟨5, numBinop ratMul⟩
  | _ => none

/-- JS `String(x)` for a possibly-NaN number (used on array indices). -/
def jsStringOfNumOpt : Option ℚ → String
  | some q => jsNumToString q
  | none => "NaN"

/-- JS `String(v)` / `v.toString()` on a runtime value.  A function prints
its source text in JS; unmodelled (placeholder), unreachable from anything
verified below. -/
def jsStringOfResult : Result → String
  | .num q => jsNumToString q
  | .nan => "NaN"
  | .bool b => if b then "true" else "false"
  | _ => "function"

/-- JossArray.makeKey over pre-stringified indices. -/
def JossArray.makeKey (indices : List String) : String :=
  "(" ++ String.intercalate "," indices ++ ")"

/-- JossArray.set: a different arity clears all entries and re-fixes the
dimensionality, then the key is written.  Indices arrive already coerced to
numbers by eval_set (`Number(i.eval(joss, {}))`), possibly NaN. -/
def JossArray.set (arr : JossArray) (indices : List (Option ℚ)) (v : Result) :
    JossArray :=
  let arr :=
    if indices.length ≠ arr.dimensions then
      { arr with value := [], dimensions := indices.length }
    else arr
  { arr with
    value := updateAssoc arr.value
      (JossArray.makeKey (indices.map jsStringOfNumOpt)) v }

/-- JossArray.get: wrong arity throws; a missing key reads 0 when sparse
and throws otherwise.  The source's message uses single quotes, so the
template placeholder is literal text. -/
def JossArray.get (arr : JossArray) (indices : List Result) :
    Except JsErr Result :=
  if indices.length ≠ arr.dimensions then
    .error (.err "Attempt to index array with incorrect dimensionality")
  else
    match lookupAssoc arr.value
        (JossArray.makeKey (indices.map jsStringOfResult)) with
    | some v => .ok v
    | none =>
      if arr.sparse then .ok (.num 0)
      else .error (.err "Missing array contents: $\x7bkey\x7d")

/-- keys of the FUNCTIONS table in joss.ts. -/
def FUNCTIONS_NAMES : List String :=
  ["sgn", "ip", "fp", "dp", "xp", "sqrt", "sin", "cos", "log", "exp", "arg",
   "sum", "prod", "min", "max", "conj", "disj", "tv"]

def Joss.outputStr (j : Joss) (s : String) : Joss :=
  { j with output := j.output ++ s }

/-- Joss.setVariable: write the scalar, clear any array of the same name. -/
def Joss.setVariable (j : Joss) (s : String) (v : Result) : Joss :=
  { j with vars := updateAssoc j.vars s v,
           arrays := deleteAssoc j.arrays s }

/-- Joss.setArray: get-or-create the array, set, clear any scalar of the
same name. -/
def Joss.setArray (j : Joss) (s : String) (indices : List (Option ℚ))
    (v : Result) : Joss :=
  let arr := (lookupAssoc j.arrays s).getD ⟨0, [], false⟩
  { j with arrays := updateAssoc j.arrays s (arr.set indices v),
           vars := deleteAssoc j.vars s }

/-- Joss.get: scalar first, then array accessor, then built-in, else the
no-such-variable error. -/
def Joss.get (j : Joss) (s : String) : Except JsErr Result :=
  match lookupAssoc j.vars s with
  | some v => .ok v
  | none =>
    match lookupAssoc j.arrays s with
    | some _ => .ok (.arrAcc s)
    | none =>
      if FUNCTIONS_NAMES.contains s then .ok (.builtin s)
      else .error (.err ("No such variable: " ++ s))

/-- the comparison `Number(x) < Number(y)` used by setStep's insertion scan;
false whenever either side is NaN. -/
def jsltOpt : Option ℚ → Option ℚ → Bool
  | some a, some b => decide (a < b)
  | _, _ => false

/-- setStep's insertion loop, scanning the part list from its end: shift
every trailing key whose numeric value is not below the new key's, and
place the new key at the break position.  Stated on the reversed list; the
wrapper `insertStep` reverses back. -/
def insertRev (stepLoc : Option ℚ) (fullName : String) :
    List String → List String
  | [] => [fullName]
  | x :: xs =>
    if jsltOpt (jsNumber x) stepLoc then fullName :: x :: xs
    else x :: insertRev stepLoc fullName xs

def insertStep (stepLoc : Option ℚ) (fullName : String)
    (arr : List String) : List String :=
  (insertRev stepLoc fullName arr.reverse).reverse

/-- Joss.setStep: always overwrite the program entry; only a key not seen
before is inserted into the part's ordered list, at the position given by
`Number(fullName)`. -/
def Joss.setStep (j : Joss) (part stepName : String) (command : Command) :
    Joss :=
  let fullName := part ++ "." ++ stepName
  let previousStep := lookupAssoc j.program fullName
  let j' := { j with program := updateAssoc j.program fullName command }
  match previousStep with
  | some _ => j'
  | none =>
    let stepLoc := jsNumber fullName
    let cur := (lookupAssoc j.programParts part).getD []
    { j' with
      programParts :=
        updateAssoc j.programParts part (insertStep stepLoc fullName cur) }

/-- Joss.getStep simply reads the record: an absent step is JS `undefined`
(`none`), not an error. -/
def Joss.getStep (j : Joss) (part stepName : String) : Option Command :=
  lookupAssoc j.program (part ++ "." ++ stepName)

/-- JS truncation toward zero (`Math.trunc`). -/
def ratTrunc (q : ℚ) : ℚ := if q < 0 then -((⌊-q⌋ : ℤ) : ℚ) else ((⌊q⌋ : ℤ) : ℚ)

/-- `args[0]`, behaving as NaN under numeric coercion when absent. -/
def arg0 (args : List Result) : Result := args.headD .nan

/-- The FUNCTIONS table of joss.ts, applied.  The numeric-dissection and
aggregate functions that stay inside the rationals are modelled exactly;
`sqrt/sin/cos/log/exp/arg` are real-valued and `dp/xp` go through the
double's `toExponential` string, none of which the rational model can
express — they answer with an error and are exercised by nothing below. -/
def applyBuiltin : String → List Result → Except JsErr Result
  | "sgn", args => .ok (match jsToNum (arg0 args) with
      | some q => .num (if q < 0 then -1 else if q = 0 then 0 else 1)
      | none => .nan)
  | "ip", args => .ok (match jsToNum (arg0 args) with
      | some q => .num (ratTrunc q)
      | none => .nan)
  | "fp", args => .ok (match jsToNum (arg0 args) with
      | some q => .num (ratSub q (ratTrunc q))
      | none => .nan)
  | "sum", args => .ok (args.foldl (fun acc n => numBinop ratAdd acc n) (.num 0))
  | "prod", args => .ok (args.foldl (fun acc n => numBinop ratMul acc n) (.num 1))
  | "conj", args => .ok (args.foldl (fun acc b => if jsToBool acc then b else acc)
      (.bool true))
  | "disj", args => .ok (args.foldl (fun acc b => if jsToBool acc then acc else b)
      (.bool false))
  | "tv", args =>
    match arg0 args with
    | .bool b => .ok (.num (if b then 1 else 0))
    | .num q => .ok (.bool (decide (q ≠ 0)))
    | .nan => .ok (.bool false)
    | _ => .error (.err "tv of a callable returns undefined; unmodelled")
  | n, _ => .error (.err ("builtin " ++ n ++
      " is outside the rational value model"))

/-- the local function-argument scope threaded through expression
evaluation. -/
abbrev FnArgs := List (String × Result)

/-- `res instanceof Function`. -/
def isCallable : Result → Bool
  | .closure _ _ => true
  | .arrAcc _ => true
  | .builtin _ => true
  | _ => false

/-- ConditionalExpression.eval, abstracted over the expression evaluator:
first truthy condition selects its paired result; otherwise the default. -/
def evalCondAux (ev : Expression → Except JsErr Result) :
    List (Expression × Expression) → Expression → Except JsErr Result
  | [], dflt => ev dflt
  | (condition, result) :: rest, dflt => do
    let c ← ev condition
    if jsToBool c then ev result else evalCondAux ev rest dflt

/-- evaluate a list of expressions left to right (the index/argument list
of VariableExpression.eval). -/
def mapEval (ev : Expression → Except JsErr Result) :
    List Expression → Except JsErr (List Result)
  | [] => .ok []
  | e :: es => do
    let v ← ev e
    let vs ← mapEval ev es
    .ok (v :: vs)

/-- apply a callable value to evaluated arguments: a Let-closure checks
arity then evaluates its body in the zipped argument scope (Let.eval); an
array accessor is JossArray.get on the named array; a built-in dispatches
into the FUNCTIONS table.  The last case is unreachable behind the
`isCallable` guard. -/
def applyResult (ev : FnArgs → Expression → Except JsErr Result) (j : Joss) :
    Result → List Result → Except JsErr Result
  | .closure argNames body, args =>
    if args.length ≠ argNames.length then
      .error (.err "Invalid arity on function call")
    else ev (argNames.zip args) body
  | .arrAcc name, args =>
    match lookupAssoc j.arrays name with
    | some arr => arr.get args
    | none => .error (.err ("No such array: " ++ name))
  | .builtin name, args => applyBuiltin name args
  | _, _ => .error (.err "TypeError: not a function")

/-- Expression evaluation (the eval methods of expression.ts), fuel-indexed
because closure application re-enters evaluation on the closure body. -/
def evalE : ℕ → Joss → FnArgs → Expression → Except JsErr Result
  | 0, _, _, _ => .error .outOfFuel
  | f+1, j, fnArgs, e =>
    match e with
    | .number q => .ok (.num q)
    | .var v indices => do
      let res ← (match lookupAssoc fnArgs v with
        | some val => Except.ok val
        | none => j.get v)
      if isCallable res && !indices.isEmpty then do
        let args ← mapEval (fun e' => evalE f j fnArgs e') indices
        applyResult (fun fa body => evalE f j fa body) j res args
      else .ok res
    | .binary op lhs rhs => do
      let a ← evalE f j fnArgs lhs
      let b ← evalE f j fnArgs rhs
      match BINARY_OPERATORS op with
      | some o => .ok (o.fn a b)
      | none => .error (.err ("unknown operator " ++ op))
    | .conditional crs dflt => evalCondAux (fun e' => evalE f j fnArgs e') crs dflt
termination_by structural f _ _ _ => f

/-- VariableExpression.eval_set: with indices it is an array write (indices
coerced to numbers against an empty argument scope), else a scalar write.
The right-hand-side value arrives already evaluated (Set.eval evaluates it
before calling eval_set). -/
def evalSetTarget (f : ℕ) (j : Joss) (target : String × List Expression)
    (value : Result) : Except JsErr Joss :=
  match target with
  | (v, []) => .ok (j.setVariable v value)
  | (v, indices) => do
    let idx ← mapEval (fun e => evalE f j [] e) indices
    .ok (j.setArray v (idx.map jsToNum) value)

/-- Type.eval: each string expression is written followed by a newline. -/
def runType (f : ℕ) (j : Joss) : List StringExpression → Except JsErr Joss
  | [] => .ok j
  | .maths e :: rest => do
    let v ← evalE f j [] e
    runType f (j.outputStr (jsStringOfResult v ++ "\n")) rest
  | .quoted s :: rest => runType f (j.outputStr (s ++ "\n")) rest

/-- run the stored steps named by `keys` in order (the body of Do.evalDo's
part loop); a key whose program entry is missing would make the source call
`.eval` on undefined. -/
def foldSteps (rs : Command → Joss → Except JsErr Joss) :
    Joss → List String → Except JsErr Joss
  | j, [] => .ok j
  | j, k :: ks =>
    match lookupAssoc j.program k with
    | some cmd => do foldSteps rs (← rs cmd j) ks
    | none => .error (.err
        "TypeError: Cannot read properties of undefined (reading eval)")

/-- Do.evalDo: a step mode runs the single stored step — calling `.eval` on
the record lookup, which is a TypeError when the step is absent — and a
part mode iterates the part's ordered key list (iterating an absent list is
itself a TypeError in JS). -/
def evalDoPlain (rs : Command → Joss → Except JsErr Joss) (part : String)
    (step : Option String) (j : Joss) : Except JsErr Joss :=
  match step with
  | some s =>
    match j.getStep part s with
    | some cmd => rs cmd j
    | none => .error (.err
        "TypeError: Cannot read properties of undefined (reading eval)")
  | none =>
    match lookupAssoc j.programParts part with
    | some keys => foldSteps rs j keys
    | none => .error (.err "TypeError: undefined is not iterable")

/-- the loop condition `i < Number(times.eval(joss, {}))`: NaN compares
false. -/
def jsCounterLt (i : ℕ) (n : Result) : Bool :=
  match jsToNum n with
  | some q => decide ((i : ℚ) < q)
  | none => false

/-- the `times` loop of Do.eval: a counted loop whose bound is re-evaluated
before every iteration, exactly as the source's for-loop condition. -/
def doTimesLoop (evalCount : Joss → Except JsErr Result)
    (body : Joss → Except JsErr Joss) : ℕ → ℕ → Joss → Except JsErr Joss
  | 0, _, _ => .error .outOfFuel
  | f+1, i, j => do
    let n ← evalCount j
    if jsCounterLt i n then doTimesLoop evalCount body f (i + 1) (← body j)
    else .ok j

/-- one arithmetic-progression generator (addRangeGenerator): the source
reads `end`, then `step`, then starts the loop variable, yielding while
`i < endval`; NaN anywhere stops the progression at that point.  Fuel
bounds the loop, which diverges in the source for a non-positive step. -/
def progAux (stepv endv : Option ℚ) : ℕ → Option ℚ → Except JsErr (List Result)
  | 0, _ => .error .outOfFuel
  | f+1, i =>
    if jsltOpt i endv then do
      let rest ← progAux stepv endv f
        (match i, stepv with
          | some a, some b => some (ratAdd a b)
          | _, _ => none)
      .ok ((match i with | some q => Result.num q | none => Result.nan) :: rest)
    else .ok []

/-- ValueRange.eval: concatenate the generators' yields in order. -/
def rangeEval (f : ℕ) (j : Joss) (fnArgs : FnArgs) :
    ValueRange → Except JsErr (List Result)
  | [] => .ok []
  | .single e :: rest => do
    let v ← evalE f j fnArgs e
    let vs ← rangeEval f j fnArgs rest
    .ok (v :: vs)
  | .steprange start step stop :: rest => do
    let endv ← evalE f j fnArgs stop
    let stepv ← evalE f j fnArgs step
    let startv ← evalE f j fnArgs start
    let vs ← progAux (jsToNum stepv) (jsToNum endv) f (jsToNum startv)
    let vs' ← rangeEval f j fnArgs rest
    .ok (vs ++ vs')

/-- the `for` loop of Do.eval: bind the variable, run the unit, next value. -/
def doForLoop (body : Joss → Except JsErr Joss) (s : String) :
    List Result → Joss → Except JsErr Joss
  | [], j => .ok j
  | v :: vs, j => do doForLoop body s vs (← body (j.setVariable s v))

/-- Command.eval / Verb.eval: the if-modifier guards the verb; Set
evaluates its right-hand side then writes through the target; Let binds the
closure; Do dispatches on its modifier.  The source generates the `for`
range lazily against the mutating environment; it is evaluated up front
here, which agrees whenever the executed steps do not mutate variables the
range expressions read (nothing below does).  Fuel decreases when Do re-enters
stored commands. -/
def runStep : ℕ → Command → Joss → Except JsErr Joss
  | 0, _, _ => .error .outOfFuel
  | f+1, c, j => do
    let go ← (match c.ifmodifier with
      | none => Except.ok true
      | some e => do
        let v ← evalE (f+1) j [] e
        Except.ok (jsToBool v))
    if !go then .ok j
    else
      match c.verb with
      | .noop => .ok j
      | .typeV es => runType (f+1) j es
      | .setV target e => do
        let v ← evalE (f+1) j [] e
        evalSetTarget (f+1) j target v
      | .letV v argNames body => .ok (j.setVariable v (.closure argNames body))
      | .doV part step times forMod =>
        match times with
        | some te =>
          doTimesLoop (fun j' => evalE (f+1) j' [] te)
            (fun j' => evalDoPlain (fun c' j'' => runStep f c' j'') part step j')
            (f+1) 0 j
        | none =>
          match forMod with
          | some (s, vr) => do
            let vals ← rangeEval (f+1) j [] vr
            doForLoop
              (fun j' => evalDoPlain (fun c' j'' => runStep f c' j'') part step j')
              s vals j
          | none => evalDoPlain (fun c' j'' => runStep f c' j'') part step j
termination_by structural f _ _ => f

/-- `tokens.peek()` on the embedded iterator: the head, or the END
sentinel past the end. -/
def peekT (ts : List Token) : Token := ts.headD endToken

/-- parse_helpers.ts `expect`.  The TS message renders the expected type as
its numeric enum value and the token as JSON; both are rendered by name
here (the current enum's numbering is not in src/). -/
def expect (context : String) (t : Token) (type : TokenType)
    (raw : Option String) : Except JsErr Token :=
  let isMatch := decide (t.type = type) &&
    (match raw with
      | none => true
      | some r => decide (t.raw = r))
  if isMatch then .ok t
  else .error (.err (context ++ ": expected " ++ type.name ++
    (match raw with
      | some r => " \"" ++ r ++ "\""
      | none => "") ++
    ", got " ++ t.type.name ++ " \"" ++ t.raw ++ "\""))

mutual

/-- Expression.parse. -/
def parseExpr : ℕ → List Token → Except JsErr (Expression × List Token)
  | 0, _ => .error .outOfFuel
  | f+1, ts => do
    let (lhs, ts1) ← parseUnary f ts
    parseBinary f lhs 0 ts1
termination_by structural f _ => f

/-- Expression.parse_unary: number literal, variable/array/function
reference, or bracketed group — which the condition loop below turns into a
ConditionalExpression exactly when at least one `:` occurred. -/
def parseUnary : ℕ → List Token → Except JsErr (Expression × List Token)
  | 0, _ => .error .outOfFuel
  | f+1, ts =>
    let token := peekT ts
    match token.type with
    | .NUM => .ok (.number ((jsNumber token.raw).getD 0), ts.tail)
    | .VAR => do
      let (ve, ts1) ← parseVariableExpr f ts
      .ok (.var ve.1 ve.2, ts1)
    | .OPEN_BRACKET => do
      let (result, ts1) ← parseExpr f ts.tail
      let (crs, dflt, ts2) ← parseCondLoop f [] result ts1
      let closeRaw := if token.raw = "[" then "]" else ")"
      let _ ← expect "Invalid parenthesis" (peekT ts2) .CLOSE_BRACKET
        (some closeRaw)
      let ts3 := ts2.tail
      if crs.isEmpty then .ok (dflt, ts3)
      else .ok (.conditional crs dflt, ts3)
    | _ => .error (.err
        ("Unexpected token in numeric expression: got " ++ token.raw))
termination_by structural f _ => f

/-- the `while COLON` loop inside parse_unary: the expression parsed so far
was really a condition; parse its result, expect the semicolon, parse the
next candidate default. -/
def parseCondLoop : ℕ → List (Expression × Expression) → Expression →
    List Token →
    Except JsErr (List (Expression × Expression) × Expression × List Token)
  | 0, _, _, _ => .error .outOfFuel
  | f+1, acc, result, ts =>
    if decide ((peekT ts).type = TokenType.COLON) then do
      let (r, ts1) ← parseExpr f ts.tail
      let _ ← expect "expression for default condition" (peekT ts1)
        .SEMICOLON none
      let (result', ts2) ← parseExpr f ts1.tail
      parseCondLoop f (acc ++ [(result, r)]) result' ts2
    else .ok (acc, result, ts)
termination_by structural f _ _ _ => f

/-- Expression.parse_binary, precedence climbing: consume an operator of
precedence at least `minPrec`, parse the unary right-hand side, absorb any
higher-precedence continuation (parseBinInner), fold into a binary node,
repeat. -/
def parseBinary : ℕ → Expression → ℕ → List Token →
    Except JsErr (Expression × List Token)
  | 0, _, _, _ => .error .outOfFuel
  | f+1, lhs, minPrec, ts =>
    let token := peekT ts
    if decide (token.type = TokenType.OP) then
      match BINARY_OPERATORS token.raw with
      | none => .error (.err
          "TypeError: Cannot read properties of undefined (reading prec)")
      | some current =>
        if current.prec ≥ minPrec then do
          let (rhs0, ts1) ← parseUnary f ts.tail
          let (rhs, ts2) ← parseBinInner f current.prec rhs0 ts1
          parseBinary f (.binary token.raw lhs rhs) minPrec ts2
        else .ok (lhs, ts)
    else .ok (lhs, ts)
termination_by structural f _ _ _ => f

/-- the inner while of parse_binary: while the next operator binds tighter
than the current one, let parse_binary absorb it into the right-hand side
(the operator token is left for that recursive call to re-read). -/
def parseBinInner : ℕ → ℕ → Expression → List Token →
    Except JsErr (Expression × List Token)
  | 0, _, _, _ => .error .outOfFuel
  | f+1, curPrec, rhs, ts =>
    let token := peekT ts
    if decide (token.type = TokenType.OP) then
      match BINARY_OPERATORS token.raw with
      | none => .error (.err
          "TypeError: Cannot read properties of undefined (reading prec)")
      | some next =>
        if next.prec > curPrec then do
          let (rhs', ts1) ← parseBinary f rhs next.prec ts
          parseBinInner f curPrec rhs' ts1
        else .ok (rhs, ts)
    else .ok (rhs, ts)
termination_by structural f _ _ _ => f

/-- VariableExpression.parse: a name, optionally followed by a bracketed
comma-separated index list closed by the matching bracket. -/
def parseVariableExpr : ℕ → List Token →
    Except JsErr ((String × List Expression) × List Token)
  | 0, _ => .error .outOfFuel
  | f+1, ts =>
    let v := (peekT ts).raw
    let ts1 := ts.tail
    let token := peekT ts1
    if !decide (token.type = TokenType.OPEN_BRACKET) then .ok ((v, []), ts1)
    else do
      let expectedBracket := if token.raw = "[" then "]" else ")"
      let (indices, ts2) ← parseIdxLoop f expectedBracket [] ts1.tail
      .ok ((v, indices), ts2)
termination_by structural f _ => f

/-- the index loop of VariableExpression.parse: parse an expression, then
one token — the matching close bracket ends the list, anything else must be
a comma. -/
def parseIdxLoop : ℕ → String → List Expression → List Token →
    Except JsErr (List Expression × List Token)
  | 0, _, _, _ => .error .outOfFuel
  | f+1, expectedBracket, acc, ts => do
    let (e, ts1) ← parseExpr f ts
    let token := peekT ts1
    if token.raw = expectedBracket then .ok (acc ++ [e], ts1.tail)
    else do
      let _ ← expect "variable argument" token .COMMA none
      parseIdxLoop f expectedBracket (acc ++ [e]) ts1.tail
termination_by structural f _ _ _ => f

end

/-- ValueRange.parse's loop: until the peeked terminator (`:` or `.`),
consume one token — a comma emits the pending expression as a singleton and
parses the next; an open bracket parses `(step) end`, emits the range term,
and the end expression becomes the pending expression (so it is emitted
again by whatever comes next); any other token is silently consumed. -/
def parseRangeLoop : ℕ → ValueRange → Expression → List Token →
    Except JsErr (ValueRange × List Token)
  | 0, _, _, _ => .error .outOfFuel
  | f+1, vr, start, ts =>
    if !([":", "."].contains (peekT ts).raw) then
      let token := peekT ts
      let ts1 := ts.tail
      if token.raw = "," then do
        let (start', ts2) ← parseExpr f ts1
        parseRangeLoop f (vr ++ [.single start]) start' ts2
      else if decide (token.type = TokenType.OPEN_BRACKET) then do
        let (step, ts2) ← parseExpr f ts1
        let closeRaw := if token.raw = "[" then "]" else ")"
        let _ ← expect "end of step in range" (peekT ts2) .CLOSE_BRACKET
          (some closeRaw)
        let (stop, ts3) ← parseExpr f ts2.tail
        parseRangeLoop f (vr ++ [.steprange start step stop]) stop ts3
      else parseRangeLoop f vr start ts1
    else .ok (vr ++ [.single start], ts)

/-- ValueRange.parse. -/
def parseValueRange (f : ℕ) (ts : List Token) :
    Except JsErr (ValueRange × List Token) := do
  let (start, ts1) ← parseExpr f ts
  parseRangeLoop f [] start ts1

/-- QuotedString.parse: strip the delimiting quotes (`slice(1, -1)`). -/
def parseQuotedString (ts : List Token) :
    Except JsErr (StringExpression × List Token) :=
  let token := peekT ts
  .ok (.quoted (String.mk ((token.raw.data.drop 1).dropLast)), ts.tail)

/-- Type.parse's operand loop (parseDecision dispatch, then continue past
commas). -/
def parseTypeLoop : ℕ → List StringExpression → List Token →
    Except JsErr (List StringExpression × List Token)
  | 0, _, _ => .error .outOfFuel
  | f+1, acc, ts => do
    let token := peekT ts
    let (se, ts1) ←
      (match token.type with
        | .VAR | .NUM | .OP | .OPEN_BRACKET => do
          let (e, ts') ← parseExpr f ts
          Except.ok (StringExpression.maths e, ts')
        | .STR => parseQuotedString ts
        | _ => Except.error (.err ("Cant type " ++ token.raw)))
    if decide ((peekT ts1).type = TokenType.COMMA) then
      parseTypeLoop f (acc ++ [se]) ts1.tail
    else .ok (acc ++ [se], ts1)

/-- Set.parse: target variable expression, `=`, right-hand side. -/
def parseSet (f : ℕ) (ts : List Token) : Except JsErr (Verb × List Token) := do
  let (ve, ts1) ← parseVariableExpr f ts
  let _ ← expect "after set variable" (peekT ts1) .OP (some "=")
  let (e, ts2) ← parseExpr f ts1.tail
  .ok (.setV ve e, ts2)

/-- Let.parse's argument-name loop.  The source re-checks the VAR token it
just consumed where it means to check the separating comma, so any second
argument fails the expect — reproduced faithfully. -/
def parseLetArgsLoop : ℕ → List String → List Token →
    Except JsErr (List String × List Token)
  | 0, _, _ => .error .outOfFuel
  | f+1, acc, ts => do
    let token ← expect "variable name" (peekT ts) .VAR none
    let ts1 := ts.tail
    let acc1 := acc ++ [token.raw]
    if decide ((peekT ts1).type = TokenType.CLOSE_BRACKET) then .ok (acc1, ts1)
    else do
      let _ ← expect "next variable argument" token .COMMA none
      parseLetArgsLoop f acc1 ts1

/-- Let.parse: name, optional bracketed argument names, `=`, body. -/
def parseLet (f : ℕ) (ts : List Token) : Except JsErr (Verb × List Token) := do
  let v := (peekT ts).raw
  let ts1 := ts.tail
  let token := peekT ts1
  if decide (token.type = TokenType.OPEN_BRACKET) then do
    let expectedBracket := if token.raw = "[" then "]" else ")"
    let (argNames, ts2) ← parseLetArgsLoop f [] ts1.tail
    let _ ← expect "end of function arguments" (peekT ts2) .CLOSE_BRACKET
      (some expectedBracket)
    let ts3 := ts2.tail
    let _ ← expect "after set variable" (peekT ts3) .OP (some "=")
    let (e, ts4) ← parseExpr f ts3.tail
    .ok (.letV v argNames e, ts4)
  else do
    let _ ← expect "after set variable" (peekT ts1) .OP (some "=")
    let (e, ts2) ← parseExpr f ts1.tail
    .ok (.letV v [] e, ts2)

/-- JS `raw.includes('.')`. -/
def containsDot (s : String) : Bool := s.data.contains '.'

/-- `const [part, step] = raw.split('.')`: the first two components, the
second absent when there is no dot. -/
def splitDotParts (s : String) : String × Option String :=
  match splitDot s.data with
  | [] => ("", none)
  | [a] => (String.mk a, none)
  | a :: b :: _ => (String.mk a, some (String.mk b))

/-- Do.parse: `step`/`part` keyword with the dotted-or-not shape check on
the following literal, then the optional `for` or `, E times` modifier
(`step || null` makes an empty step component behave as a whole-part Do). -/
def parseDo (f : ℕ) (ts : List Token) : Except JsErr (Verb × List Token) := do
  let token := peekT ts
  let ts1 := ts.tail
  let (numTok, ts2) ←
    (match token.raw with
      | "step" =>
        let t := peekT ts1
        if !containsDot t.raw then
          Except.error (.err "Invalid step (i.e. must be 1.1, not 1)")
        else Except.ok (t, ts1.tail)
      | "part" =>
        let t := peekT ts1
        if containsDot t.raw then
          Except.error (.err "Invalid part (i.e. must be 1, not 1.1)")
        else Except.ok (t, ts1.tail)
      | _ => Except.error (.err "Expecting step or part after Do"))
  let (part, stepRaw) := splitDotParts numTok.raw
  let step : Option String :=
    match stepRaw with
    | some s => if s = "" then none else some s
    | none => none
  match (peekT ts2).raw with
  | "for" => do
    let token ← expect "variable for range" (peekT ts2.tail) .VAR none
    let ts3 := ts2.tail.tail
    let _ ← expect "= for range" (peekT ts3) .OP (some "=")
    let (vr, ts4) ← parseValueRange f ts3.tail
    .ok (.doV part step none (some (token.raw, vr)), ts4)
  | "," => do
    let (te, ts3) ← parseExpr f ts2.tail
    let _ ← expect "expecting times after expression following for"
      (peekT ts3) .ID (some "times")
    .ok (.doV part step (some te) none, ts3.tail)
  | _ => .ok (.doV part step none none, ts2)

/-- Command.parse: END gives NoOp, an ID dispatches on the verb, anything
else is rejected; then the optional trailing `if` modifier. -/
def parseCommand (f : ℕ) (ts : List Token) :
    Except JsErr (Command × List Token) := do
  let token := peekT ts
  let ts1 := ts.tail
  let (verb, ts2) ←
    (match token.type with
      | .END => Except.ok (Verb.noop, ts1)
      | .ID =>
        match token.raw with
        | "Type" => do
          let (es, ts') ← parseTypeLoop f [] ts1
          Except.ok (Verb.typeV es, ts')
        | "Set" => parseSet f ts1
        | "Let" => parseLet f ts1
        | "Do" => parseDo f ts1
        | _ => Except.error (.err (token.raw ++ " is not a command"))
      | _ => Except.error (.err
          ("Expecting verb to start command, got " ++ token.raw)))
  if (peekT ts2).raw = "if" then do
    let _ ← expect "" (peekT ts2) .ID (some "if")
    let (e, ts3) ← parseExpr f ts2.tail
    .ok (⟨verb, some e⟩, ts3)
  else .ok (⟨verb, none⟩, ts2)

/-- one parsed input line: an immediate command, or a stored (part, step)
registration. -/
inductive ParsedLine where
  | cmd (c : Command)
  | stored (part step : String) (c : Command)

/-- StoredCommand.parse: the leading number must contain a dot; split it
into part and step and parse the rest as a command. -/
def parseStored (f : ℕ) (ts : List Token) :
    Except JsErr (ParsedLine × List Token) := do
  let token := peekT ts
  if !containsDot token.raw then
    .error (.err "Line number without step (i.e. must be 1.1, not 1)")
  else do
    let (part, stepRaw) := splitDotParts token.raw
    let (c, ts1) ← parseCommand f ts.tail
    .ok (.stored part (stepRaw.getD "") c, ts1)

/-- top-level parse: a leading NUM token selects the stored form; both
forms require the terminating PERIOD token. -/
def parse (f : ℕ) (ts : List Token) : Except JsErr ParsedLine := do
  if decide ((peekT ts).type = TokenType.NUM) then do
    let (sc, ts1) ← parseStored f ts
    let _ ← expect "End of command" (peekT ts1) .PERIOD none
    .ok sc
  else do
    let (c, ts1) ← parseCommand f ts
    let _ ← expect "End of command" (peekT ts1) .PERIOD none
    .ok (.cmd c)

/-- Joss.eval_line: tokenize, parse, then either run the command or
register the stored command. -/
def evalLine (f : ℕ) (j : Joss) (s : String) : Except JsErr Joss := do
  match ← parse f (tokenise s) with
  | .cmd c => runStep f c j
  | .stored part step c => Except.ok (j.setStep part step c)

/-- Joss.eval over a list of input lines (the source splits its input on
newlines and evaluates line by line; an error aborts the remainder). -/
def evalLines (f : ℕ) (j : Joss) : List String → Except JsErr Joss
  | [] => .ok j
  | s :: rest => do evalLines f (← evalLine f j s) rest

/-- one StoredCommand registration, as performed by StoredCommand.eval. -/
structure Registration where
  part : String
  step : String
  command : Command

/-- register a sequence of stored commands in order. -/
def applyRegs : List Registration → Joss → Joss
  | [], j => j
  | r :: rs, j => applyRegs rs (j.setStep r.part r.step r.command)

/-- run a state transformer `n` times, threading errors (the reference
iteration count for the `times` loop). -/
def runN (body : Joss → Except JsErr Joss) : ℕ → Joss → Except JsErr Joss
  | 0, j => .ok j
  | n+1, j => do runN body n (← body j)

/-- a part's key list is ordered when, scanned from the end as setStep's
insertion loop does, no later key is numerically below an earlier one. -/
def stepsOrdered (keys : List String) : Prop :=
  List.Pairwise (fun x y => jsltOpt (jsNumber x) (jsNumber y) = false)
    keys.reverse

/-- the program-store invariant: every part list is ordered, and its keys
are numeric and backed by a program entry. -/
def StoreInv (j : Joss) : Prop :=
  ∀ p keys, lookupAssoc j.programParts p = some keys →
    stepsOrdered keys ∧
    ∀ k ∈ keys, (jsNumber k).isSome = true ∧
      (lookupAssoc j.program k).isSome = true

/-- the completeness invariant: every stored `part.step` program entry
(with dot-free part and step, as `split('.')` produces) appears in its
part's key list. -/
def StoreComplete (j : Joss) : Prop :=
  ∀ p s : String, '.' ∉ p.data → '.' ∉ s.data →
    (lookupAssoc j.program (p ++ "." ++ s)).isSome = true →
    ∃ keys, lookupAssoc j.programParts p = some keys ∧
      (p ++ "." ++ s) ∈ keys

/-! ## Model-validation lemmas: the kernel-computable arithmetic helpers
are the rational field operations. -/

theorem ratAdd_eq (a b : ℚ) : ratAdd a b = a + b := by
  have ha : (a.den : ℚ) ≠ 0 := by exact_mod_cast a.den_nz
  have hb : (b.den : ℚ) ≠ 0 := by exact_mod_cast b.den_nz
  rw [ratAdd, Rat.mkRat_eq_div]
  push_cast
  conv_rhs => rw [← Rat.num_div_den a, ← Rat.num_div_den b]
  rw [div_add_div _ _ ha hb]
  congr 1
  ring

theorem ratSub_eq (a b : ℚ) : ratSub a b = a - b := by
  have ha : (a.den : ℚ) ≠ 0 := by exact_mod_cast a.den_nz
  have hb : (b.den : ℚ) ≠ 0 := by exact_mod_cast b.den_nz
  rw [ratSub, Rat.mkRat_eq_div]
  push_cast
  conv_rhs => rw [← Rat.num_div_den a, ← Rat.num_div_den b]
  rw [div_sub_div _ _ ha hb]
  congr 1
  ring

theorem ratMul_eq (a b : ℚ) : ratMul a b = a * b := by
  have ha : (a.den : ℚ) ≠ 0 := by exact_mod_cast a.den_nz
  have hb : (b.den : ℚ) ≠ 0 := by exact_mod_cast b.den_nz
  rw [ratMul, Rat.mkRat_eq_div]
  push_cast
  conv_rhs => rw [← Rat.num_div_den a, ← Rat.num_div_den b]
  rw [div_mul_div_comm]

theorem ratDiv_eq (a b : ℚ) (hb : b ≠ 0) : ratDiv a b = a / b := by
  have had : (a.den : ℚ) ≠ 0 := by exact_mod_cast a.den_nz
  have hbd : (b.den : ℚ) ≠ 0 := by exact_mod_cast b.den_nz
  have hbn : (b.num : ℚ) ≠ 0 := by
    simpa using Rat.num_ne_zero.mpr hb
  rw [ratDiv, Rat.divInt_eq_div]
  push_cast
  conv_rhs => rw [← Rat.num_div_den a, ← Rat.num_div_den b]
  field_simp

/-! ## C3: end-to-end `Set x = 3.` then `Type x*x.` -/

/-- C3: both lines tokenize with the terminating period as its own PERIOD
token, and evaluating them from a fresh environment succeeds and writes
exactly "9\n" to the output sink. -/
theorem c3_set_then_type_outputs_nine :
    tokenise "Set x = 3." =
      [⟨.ID, "Set"⟩, ⟨.VAR, "x"⟩, ⟨.OP, "="⟩, ⟨.NUM, "3"⟩, ⟨.PERIOD, "."⟩] ∧
    tokenise "Type x*x." =
      [⟨.ID, "Type"⟩, ⟨.VAR, "x"⟩, ⟨.OP, "*"⟩, ⟨.VAR, "x"⟩, ⟨.PERIOD, "."⟩] ∧
    (evalLines 100 Joss.fresh ["Set x = 3.", "Type x*x."]).map Joss.output =
      .ok "9\n" :=
  ⟨rfl, rfl, rfl⟩

/-! ## C5: `or` and `and` in the operator table -/

/-- C5: in BINARY_OPERATORS, `or` has precedence 0 and `and` precedence 1,
and both operators send any two operand values to the same result: the
boolean AND of the two boolean coercions. -/
theorem c5_or_and_both_conjunction :
    ((BINARY_OPERATORS "or").map BinaryOperator.prec = some 0) ∧
    ((BINARY_OPERATORS "and").map BinaryOperator.prec = some 1) ∧
    ∀ a b : Result,
      ((BINARY_OPERATORS "or").map (fun o => o.fn a b) =
          some (.bool (jsToBool a && jsToBool b)) ∧
        (BINARY_OPERATORS "and").map (fun o => o.fn a b) =
          some (.bool (jsToBool a && jsToBool b))) :=
  ⟨rfl, rfl, fun _ _ => ⟨rfl, rfl⟩⟩

/-! ## C9: getStep on an absent step -/

/-- C9 counterexample: getStep on a fresh store returns undefined (`none`)
— it raises no error of its own; the error surfaces only when `Do step`
invokes `.eval` on that undefined, as a TypeError. -/
theorem c9_counterexample_getStep_returns_undefined :
    Joss.getStep Joss.fresh "1" "1" = none ∧
    evalLines 100 Joss.fresh ["Do step 1.1."] =
      .error (.err
        "TypeError: Cannot read properties of undefined (reading eval)") :=
  ⟨rfl, rfl⟩

/-- C9 amended: for an absent `part.step` key, getStep returns undefined
(no error), and `Do step P.S` consequently fails — with the TypeError from
calling `.eval` on undefined — rather than proceeding. -/
theorem c9_amended_do_absent_step_type_errors (j : Joss) (part stepName : String)
    (habs : lookupAssoc j.program (part ++ "." ++ stepName) = none) :
    j.getStep part stepName = none ∧
    ∀ rs, evalDoPlain rs part (some stepName) j =
      .error (.err
        "TypeError: Cannot read properties of undefined (reading eval)") := by
  have hg : j.getStep part stepName = none := habs
  refine ⟨hg, fun rs => ?_⟩
  simp [evalDoPlain, hg]

theorem c9_amended_witness :
    lookupAssoc Joss.fresh.program ("1" ++ "." ++ "1") = none ∧
    (Joss.getStep Joss.fresh "1" "1" = none ∧
      ∀ rs, evalDoPlain rs "1" (some "1") Joss.fresh =
        .error (.err
          "TypeError: Cannot read properties of undefined (reading eval)")) :=
  ⟨rfl, c9_amended_do_absent_step_type_errors Joss.fresh "1" "1" rfl⟩

/-! ## C10: empty and comment lines -/

/-- C10: a line that trims to empty or to a leading/trailing `*` yields
zero tokens, yet evaluating it is not a silent no-op: the top-level parse
still expects the PERIOD after the NoOp command and raises the
End-of-command parse error. -/
theorem c10_comment_lines_error (s : String)
    (h : jsTrim s.data = [] ∨ (jsTrim s.data).headD ' ' = '*' ∨
      (jsTrim s.data).getLastD ' ' = '*') :
    tokenise s = [] ∧
    ∀ f j, evalLine f j s =
      .error (.err "End of command: expected PERIOD, got END \"\"") := by
  have hcond : ((jsTrim s.data).isEmpty ||
      decide ((jsTrim s.data).headD ' ' = '*') ||
      decide ((jsTrim s.data).getLastD ' ' = '*')) = true := by
    rcases h with h | h | h
    · simp [h]
    · simp only [Bool.or_eq_true, decide_eq_true_eq]
      exact Or.inl (Or.inr h)
    · simp only [Bool.or_eq_true, decide_eq_true_eq]
      exact Or.inr h
  have htok : tokenise s = [] := by
    unfold tokenise
    rw [if_pos hcond]
  refine ⟨htok, fun f j => ?_⟩
  unfold evalLine
  rw [htok]
  rfl

theorem c10_witness :
    (jsTrim ("" : String).data = [] ∨
      (jsTrim ("" : String).data).headD ' ' = '*' ∨
      (jsTrim ("" : String).data).getLastD ' ' = '*') ∧
    (tokenise "" = [] ∧
      ∀ f j, evalLine f j "" =
        .error (.err "End of command: expected PERIOD, got END \"\"")) :=
  ⟨Or.inl rfl, c10_comment_lines_error "" (Or.inl rfl)⟩

/-! ## C2: the range `1,3(2)9,11` -/

/-- C2 counterexample: parsing and evaluating the range `1,3(2)9,11`
yields 1,3,5,7,9,11 — the bound 9 is emitted — not the specified
1,3,5,7,11. -/
theorem c2_counterexample_range_emits_nine :
    (do
      let (vr, _) ← parseValueRange 50 (tokenise "1,3(2)9,11.")
      rangeEval 50 Joss.fresh [] vr) =
      .ok [Result.num 1, Result.num 3, Result.num 5, Result.num 7,
        Result.num 9, Result.num 11] ∧
    [Result.num 1, Result.num 3, Result.num 5, Result.num 7, Result.num 9,
        Result.num 11] ≠
      [Result.num 1, Result.num 3, Result.num 5, Result.num 7,
        Result.num 11] := by
  refine ⟨rfl, fun h => ?_⟩
  simpa using congrArg List.length h

/-! ## C8: `Do ..., E times` iteration count -/

/-- C8 counterexample: with stored step 1.1 printing one line,
`Do part 1, 2.5 times.` runs the part three times (the counted loop stops
at the first integer not below 2.5), not the floor two. -/
theorem c8_counterexample_fractional_times_ceil :
    (evalLines 100 Joss.fresh
        ["1.1 Type 1.", "Do part 1, 2.5 times."]).map Joss.output =
      .ok "1\n1\n1\n" ∧
    ("1\n1\n1\n" : String) ≠ "1\n1\n" :=
  ⟨rfl, by decide⟩

/-! ## C6: array dimensionality -/

/-- C6: setting an array at an indices tuple of a different length clears
every stored entry and fixes the new length as the dimensionality; reading
with a wrong-length tuple raises the dimensionality error.  Concretely,
after `Set a(1)=5` then `Set a(1,2)=6`, only the two-dimensional binding
reads back (`a(1,2)` is 6) and reading `a(1)` fails. -/
theorem c6_array_dimensionality (arr : JossArray) (indices : List (Option ℚ))
    (v : Result) (idxR : List Result)
    (hset : indices.length ≠ arr.dimensions)
    (hget : idxR.length ≠ arr.dimensions) :
    ((arr.set indices v).value =
        [(JossArray.makeKey (indices.map jsStringOfNumOpt), v)] ∧
      (arr.set indices v).dimensions = indices.length) ∧
    arr.get idxR =
      .error (.err "Attempt to index array with incorrect dimensionality") ∧
    (do
      let j ← evalLines 100 Joss.fresh ["Set a(1)=5.", "Set a(1,2)=6."]
      evalE 100 j [] (.var "a" [.number 1])) =
      .error (.err "Attempt to index array with incorrect dimensionality") ∧
    (do
      let j ← evalLines 100 Joss.fresh ["Set a(1)=5.", "Set a(1,2)=6."]
      evalE 100 j [] (.var "a" [.number 1, .number 2])) = .ok (.num 6) := by
  refine ⟨?_, ?_, rfl, rfl⟩
  · unfold JossArray.set
    rw [if_pos hset]
    exact ⟨rfl, rfl⟩
  · unfold JossArray.get
    rw [if_pos hget]

theorem c6_witness :
    (([some 1, some 2] : List (Option ℚ)).length ≠
        (⟨1, [("(1)", Result.num 5)], false⟩ : JossArray).dimensions) ∧
    (([Result.num 1, Result.num 2] : List Result).length ≠
        (⟨1, [("(1)", Result.num 5)], false⟩ : JossArray).dimensions) ∧
    (((⟨1, [("(1)", Result.num 5)], false⟩ : JossArray).set
          [some 1, some 2] (.num 6)).value =
        [(JossArray.makeKey ([some (1 : ℚ), some 2].map jsStringOfNumOpt),
          Result.num 6)] ∧
      ((⟨1, [("(1)", Result.num 5)], false⟩ : JossArray).set
          [some 1, some 2] (.num 6)).dimensions = 2) ∧
    (⟨1, [("(1)", Result.num 5)], false⟩ : JossArray).get
        [Result.num 1, Result.num 2] =
      .error (.err "Attempt to index array with incorrect dimensionality") := by
  have h := c6_array_dimensionality ⟨1, [("(1)", Result.num 5)], false⟩
    [some 1, some 2] (.num 6) [Result.num 1, Result.num 2]
    (by decide) (by decide)
  exact ⟨by decide, by decide, h.1, h.2.1⟩

/-! ## C7: Let-defined functions, arity and scope -/

/-- C7: applying a Let-closure with a mismatched argument count raises the
arity error; with the matching count it evaluates the body in the zipped
call-local scope; a name bound in the call-local scope is read there before
the Environment is consulted.  Concretely, after `Let f(x) = x*x`, `f(4)`
is 16 and `f(4,5)` fails with the arity error. -/
theorem c7_let_arity_and_scope (ev : FnArgs → Expression → Except JsErr Result)
    (j : Joss) (argNames : List String) (body : Expression)
    (args args' : List Result) (v : String) (fa : FnArgs) (val : Result)
    (f : ℕ)
    (hlen : args.length ≠ argNames.length)
    (hlen' : args'.length = argNames.length)
    (hfa : lookupAssoc fa v = some val) :
    applyResult ev j (.closure argNames body) args =
      .error (.err "Invalid arity on function call") ∧
    applyResult ev j (.closure argNames body) args' =
      ev (argNames.zip args') body ∧
    evalE (f+1) j fa (.var v []) = .ok val ∧
    (do
      let j' ← evalLines 100 Joss.fresh ["Let f(x) = x*x."]
      evalE 100 j' [] (.var "f" [.number 4])) = .ok (.num 16) ∧
    (do
      let j' ← evalLines 100 Joss.fresh ["Let f(x) = x*x."]
      evalE 100 j' [] (.var "f" [.number 4, .number 5])) =
      .error (.err "Invalid arity on function call") := by
  refine ⟨?_, ?_, ?_, rfl, rfl⟩
  · simp only [applyResult]
    rw [if_pos hlen]
  · simp only [applyResult]
    rw [if_neg (by simp [hlen'])]
  · simp [evalE, hfa]
    rfl

theorem c7_witness :
    (([Result.num 4, Result.num 5] : List Result).length ≠
        (["x"] : List String).length) ∧
    (([Result.num 4] : List Result).length = (["x"] : List String).length) ∧
    (lookupAssoc [("x", Result.num 5)] "x" = some (Result.num 5)) ∧
    (applyResult (fun fa e => evalE 10 Joss.fresh fa e) Joss.fresh
        (.closure ["x"] (.binary "*" (.var "x" []) (.var "x" [])))
        [Result.num 4, Result.num 5] =
      .error (.err "Invalid arity on function call") ∧
      applyResult (fun fa e => evalE 10 Joss.fresh fa e) Joss.fresh
          (.closure ["x"] (.binary "*" (.var "x" []) (.var "x" [])))
          [Result.num 4] =
        (fun fa e => evalE 10 Joss.fresh fa e)
          ((["x"] : List String).zip [Result.num 4])
          (.binary "*" (.var "x" []) (.var "x" [])) ∧
      evalE 11 Joss.fresh [("x", Result.num 5)] (.var "x" []) =
        .ok (.num 5) ∧
      (do
        let j' ← evalLines 100 Joss.fresh ["Let f(x) = x*x."]
        evalE 100 j' [] (.var "f" [.number 4])) = .ok (.num 16) ∧
      (do
        let j' ← evalLines 100 Joss.fresh ["Let f(x) = x*x."]
        evalE 100 j' [] (.var "f" [.number 4, .number 5])) =
        .error (.err "Invalid arity on function call")) :=
  ⟨by decide, by decide, rfl,
    c7_let_arity_and_scope (fun fa e => evalE 10 Joss.fresh fa e) Joss.fresh
      ["x"] (.binary "*" (.var "x" []) (.var "x" []))
      [Result.num 4, Result.num 5] [Result.num 4] "x"
      [("x", Result.num 5)] (Result.num 5) 10
      (by decide) (by decide) rfl⟩

/-! ## C4: conditional expressions -/

/-- C4: evaluating a conditional returns the paired result of the first
condition (in source order) whose value is truthy, without evaluating the
later pairs (which are arbitrary here); when no condition is truthy the
default is evaluated; the conditional case of the evaluator is exactly this
first-match scan; concretely, with x bound to 5 the bracketed group
`(x>10:1; x>3:2; 0)` parses and evaluates to 2; and a bracketed group
without `:` parses to the inner expression with no conditional wrapper. -/
theorem c4_conditional_first_match
    (ev : Expression → Except JsErr Result)
    (pre : List (Expression × Expression)) (c r : Expression)
    (post : List (Expression × Expression)) (dflt : Expression)
    (crs : List (Expression × Expression))
    (hpre : ∀ cr ∈ pre, ∃ v, ev cr.1 = .ok v ∧ jsToBool v = false)
    (hc : ∃ v, ev c = .ok v ∧ jsToBool v = true)
    (hall : ∀ cr ∈ crs, ∃ v, ev cr.1 = .ok v ∧ jsToBool v = false) :
    evalCondAux ev (pre ++ (c, r) :: post) dflt = ev r ∧
    evalCondAux ev crs dflt = ev dflt ∧
    (∀ f j fa crs' d', evalE (f+1) j fa (.conditional crs' d') =
        evalCondAux (fun e => evalE f j fa e) crs' d') ∧
    (do
      let (e, _) ← parseUnary 50 (tokenise "(x>10:1; x>3:2; 0)")
      evalE 50 (Joss.fresh.setVariable "x" (.num 5)) [] e) = .ok (.num 2) ∧
    (parseUnary 50 (tokenise "(2+3)")).map Prod.fst =
      .ok (.binary "+" (.number 2) (.number 3)) := by
  refine ⟨?_, ?_, fun f j fa crs' d' => rfl, rfl, rfl⟩
  · induction pre with
    | nil =>
      obtain ⟨v, hv, hb⟩ := hc
      simp only [List.nil_append, evalCondAux]
      rw [hv]
      show (if jsToBool v = true then ev r else evalCondAux ev post dflt) =
        ev r
      rw [hb]
      simp
    | cons hd tl ih =>
      obtain ⟨hc1, hr1⟩ := hd
      obtain ⟨v, hv, hb⟩ := hpre (hc1, hr1) (by simp)
      have hrest := ih (fun cr hcr => hpre cr (by simp [hcr]))
      simp only [List.cons_append, evalCondAux]
      rw [hv]
      show (if jsToBool v = true then ev hr1
        else evalCondAux ev (tl ++ (c, r) :: post) dflt) = ev r
      rw [hb]
      simpa using hrest
  · induction crs with
    | nil => rfl
    | cons hd tl ih =>
      obtain ⟨hc1, hr1⟩ := hd
      obtain ⟨v, hv, hb⟩ := hall (hc1, hr1) (by simp)
      have hrest := ih (fun cr hcr => hall cr (by simp [hcr]))
      simp only [evalCondAux]
      rw [hv]
      show (if jsToBool v = true then ev hr1 else evalCondAux ev tl dflt) =
        ev dflt
      rw [hb]
      simpa using hrest

theorem c4_witness :
    ((∀ cr ∈ [((Expression.binary ">" (.var "x" []) (.number 10)),
          (Expression.number 1))],
        ∃ v, evalE 10 (Joss.fresh.setVariable "x" (.num 5)) [] cr.1 =
            .ok v ∧ jsToBool v = false) ∧
      (∃ v, evalE 10 (Joss.fresh.setVariable "x" (.num 5)) []
          (.binary ">" (.var "x" []) (.number 3)) =
            .ok v ∧ jsToBool v = true)) ∧
    (evalCondAux (fun e => evalE 10 (Joss.fresh.setVariable "x" (.num 5)) [] e)
        ([((Expression.binary ">" (.var "x" []) (.number 10)),
            (Expression.number 1))] ++
          ((.binary ">" (.var "x" []) (.number 3)), Expression.number 2) :: [])
        (.number 0) =
      evalE 10 (Joss.fresh.setVariable "x" (.num 5)) [] (.number 2) ∧
    evalCondAux (fun e => evalE 10 (Joss.fresh.setVariable "x" (.num 5)) [] e)
        [((Expression.binary ">" (.var "x" []) (.number 10)),
          (Expression.number 1))] (.number 0) =
      evalE 10 (Joss.fresh.setVariable "x" (.num 5)) [] (.number 0) ∧
    (∀ f j fa crs' d', evalE (f+1) j fa (.conditional crs' d') =
        evalCondAux (fun e => evalE f j fa e) crs' d') ∧
    (do
      let (e, _) ← parseUnary 50 (tokenise "(x>10:1; x>3:2; 0)")
      evalE 50 (Joss.fresh.setVariable "x" (.num 5)) [] e) = .ok (.num 2) ∧
    (parseUnary 50 (tokenise "(2+3)")).map Prod.fst =
      .ok (.binary "+" (.number 2) (.number 3))) :=
  ⟨⟨fun cr hcr => by
      rw [List.mem_singleton] at hcr
      subst hcr
      exact ⟨.bool false, rfl, rfl⟩,
    ⟨.bool true, rfl, rfl⟩⟩,
    c4_conditional_first_match
      (fun e => evalE 10 (Joss.fresh.setVariable "x" (.num 5)) [] e)
      [((Expression.binary ">" (.var "x" []) (.number 10)),
        (Expression.number 1))]
      (.binary ">" (.var "x" []) (.number 3)) (.number 2) []
      (.number 0)
      [((Expression.binary ">" (.var "x" []) (.number 10)),
        (Expression.number 1))]
      (fun cr hcr => by
        rw [List.mem_singleton] at hcr
        subst hcr
        exact ⟨.bool false, rfl, rfl⟩)
      ⟨.bool true, rfl, rfl⟩
      (fun cr hcr => by
        rw [List.mem_singleton] at hcr
        subst hcr
        exact ⟨.bool false, rfl, rfl⟩)⟩

/-! ## C8 amended: the times loop runs a ceiling count -/

/-- one unfolding of the times loop, with the count already rewritten to a
known constant value. -/
theorem doTimesLoop_unfold (ec : Joss → Except JsErr Result)
    (body : Joss → Except JsErr Joss) (n : ℚ) (hec : ∀ j, ec j = .ok (.num n))
    (f : ℕ) (i : ℕ) (j : Joss) :
    doTimesLoop ec body (f+1) i j =
      (if jsCounterLt i (.num n) then
        (do doTimesLoop ec body f (i+1) (← body j)) else .ok j) := by
  have h : doTimesLoop ec body (f+1) i j = (do
      let m ← ec j
      if jsCounterLt i m then do doTimesLoop ec body f (i+1) (← body j)
      else Except.ok j) := rfl
  rw [h, hec j]
  rfl

/-- with a state-independent count n, the times loop from counter i is
exactly `(⌈n⌉ - i)⁺` body iterations. -/
theorem doTimesLoop_const_count (ec : Joss → Except JsErr Result)
    (body : Joss → Except JsErr Joss) (n : ℚ)
    (hec : ∀ j, ec j = .ok (.num n)) :
    ∀ f (i : ℕ) j, (⌈n⌉ - (i : ℤ)).toNat ≤ f →
      doTimesLoop ec body (f+1) i j = runN body (⌈n⌉ - (i : ℤ)).toNat j := by
  intro f
  induction f with
  | zero =>
    intro i j hle
    have hnlt : ¬ ((i : ℚ) < n) := by
      intro hlt
      have h1 : (i : ℤ) < ⌈n⌉ := Int.lt_ceil.mpr (by push_cast; exact hlt)
      omega
    rw [doTimesLoop_unfold ec body n hec, Nat.le_zero.mp hle]
    have hjc : jsCounterLt i (.num n) = false := decide_eq_false hnlt
    rw [hjc]
    rfl
  | succ f ih =>
    intro i j hle
    by_cases hlt : (i : ℚ) < n
    · have hpos : (0 : ℤ) < ⌈n⌉ - (i : ℤ) := by
        have h1 : (i : ℤ) < ⌈n⌉ := Int.lt_ceil.mpr (by push_cast; exact hlt)
        omega
      have hcount : (⌈n⌉ - (i : ℤ)).toNat = (⌈n⌉ - ((i : ℤ) + 1)).toNat + 1 := by
        omega
      have hjc : jsCounterLt i (.num n) = true := decide_eq_true hlt
      rw [doTimesLoop_unfold ec body n hec, hjc, if_pos rfl, hcount]
      have hrunN : runN body ((⌈n⌉ - ((i : ℤ) + 1)).toNat + 1) j =
          (do runN body (⌈n⌉ - ((i : ℤ) + 1)).toNat (← body j)) := rfl
      rw [hrunN]
      cases hbj : body j with
      | error e => rfl
      | ok j' =>
        show doTimesLoop ec body (f+1) (i+1) j' =
          runN body (⌈n⌉ - ((i : ℤ) + 1)).toNat j'
        have hcast : (((i+1 : ℕ)) : ℤ) = (i : ℤ) + 1 := by push_cast; ring
        rw [← hcast]
        exact ih (i+1) j' (by omega)
    · have hge : ⌈n⌉ ≤ (i : ℤ) :=
        Int.ceil_le.mpr (by push_cast; exact le_of_not_lt hlt)
      have hcount : (⌈n⌉ - (i : ℤ)).toNat = 0 := by omega
      have hjc : jsCounterLt i (.num n) = false := decide_eq_false hlt
      rw [doTimesLoop_unfold ec body n hec, hjc, hcount]
      rfl

/-- C8 amended: `Do ..., E times` with E evaluating (state-independently)
to the number n executes the targeted unit exactly `(⌈n⌉)⁺` times — the
ceiling for fractional counts, not the floor — and zero or negative counts
execute it zero times. -/
theorem c8_amended_times_runs_ceil (f : ℕ) (n : ℚ) (te : Expression)
    (part : String) (step : Option String) (j : Joss)
    (hte : ∀ j', evalE (f+1) j' [] te = .ok (.num n))
    (hf : (⌈n⌉).toNat ≤ f) :
    runStep (f+1) ⟨.doV part step (some te) none, none⟩ j =
      runN (fun j' => evalDoPlain (fun c' j'' => runStep f c' j'') part step j')
        (⌈n⌉).toNat j ∧
    (n ≤ 0 → (⌈n⌉).toNat = 0) := by
  constructor
  · have h := doTimesLoop_const_count (fun j' => evalE (f+1) j' [] te)
      (fun j' => evalDoPlain (fun c' j'' => runStep f c' j'') part step j') n
      hte f 0 j (by simpa using hf)
    calc runStep (f+1) ⟨.doV part step (some te) none, none⟩ j
        = doTimesLoop (fun j' => evalE (f+1) j' [] te)
            (fun j' => evalDoPlain (fun c' j'' => runStep f c' j'') part step j')
            (f+1) 0 j := rfl
      _ = _ := by simpa using h
  · intro hn
    have h0 : ⌈n⌉ ≤ (0 : ℤ) := Int.ceil_le.mpr (by exact_mod_cast hn)
    omega

theorem c8_amended_witness :
    ((∀ j', evalE (10+1) j' [] (.number (mkRat 5 2)) =
        .ok (.num (mkRat 5 2))) ∧
      (⌈(mkRat 5 2 : ℚ)⌉).toNat ≤ 10) ∧
    (runStep (10+1) ⟨.doV "1" none (some (.number (mkRat 5 2))) none, none⟩
        Joss.fresh =
      runN (fun j' => evalDoPlain (fun c' j'' => runStep 10 c' j'') "1" none j')
        (⌈(mkRat 5 2 : ℚ)⌉).toNat Joss.fresh ∧
      ((mkRat 5 2 : ℚ) ≤ 0 → (⌈(mkRat 5 2 : ℚ)⌉).toNat = 0)) :=
  ⟨⟨fun _ => rfl, by decide⟩,
    c8_amended_times_runs_ceil 10 (mkRat 5 2) (.number (mkRat 5 2)) "1" none
      Joss.fresh (fun _ => rfl) (by decide)⟩

/-! ## C2 amended: the range generator -/

/-- for a positive step, the generated stepped run is exactly the
arithmetic progression of values strictly below the end bound. -/
theorem progAux_pos_step_strict_below (st en : ℚ) (hst : 0 < st) :
    ∀ f (i : ℚ), (⌈ratDiv (ratSub en i) st⌉).toNat ≤ f →
      progAux (some st) (some en) (f+1) (some i) =
        .ok ((List.range (⌈ratDiv (ratSub en i) st⌉).toNat).map
          (fun k : ℕ => Result.num (i + (k : ℚ) * st))) := by
  have hconv : ∀ x : ℚ, ratDiv (ratSub en x) st = (en - x) / st := by
    intro x
    rw [ratSub_eq, ratDiv_eq _ _ (ne_of_gt hst)]
  have hlt_iff : ∀ x : ℚ, (x < en) ↔ 0 < ⌈(en - x) / st⌉ := by
    intro x
    rw [Int.ceil_pos]
    constructor
    · intro h
      exact div_pos (by linarith) hst
    · intro h
      rcases div_pos_iff.mp h with ⟨h1, _⟩ | ⟨_, h2⟩
      · linarith
      · linarith
  have hdec : ∀ x : ℚ, ⌈(en - (x + st)) / st⌉ = ⌈(en - x) / st⌉ - 1 := by
    intro x
    have h1 : (en - (x + st)) / st = (en - x) / st - 1 := by
      field_simp
      ring
    rw [h1, Int.ceil_sub_one]
  have hunfold : ∀ f (i : ℚ), progAux (some st) (some en) (f+1) (some i) =
      (if decide (i < en) = true then (do
          let rest ← progAux (some st) (some en) f (some (ratAdd i st))
          Except.ok (Result.num i :: rest))
        else .ok []) := fun f i => rfl
  intro f
  induction f with
  | zero =>
    intro i hle
    simp only [hconv] at hle ⊢
    have hnlt : ¬ (i < en) := by
      intro h
      have := (hlt_iff i).mp h
      omega
    rw [hunfold, decide_eq_false hnlt]
    have hc0 : (⌈(en - i) / st⌉).toNat = 0 := Nat.le_zero.mp hle
    rw [hc0]
    rfl
  | succ f ih =>
    intro i hle
    simp only [hconv] at hle ⊢
    by_cases hlt : i < en
    · have hpos : 0 < ⌈(en - i) / st⌉ := (hlt_iff i).mp hlt
      have hcount : (⌈(en - i) / st⌉).toNat =
          (⌈(en - (i + st)) / st⌉).toNat + 1 := by
        rw [hdec i]
        omega
      rw [hunfold, decide_eq_true hlt, if_pos rfl, ratAdd_eq]
      have hih := ih (i + st) (by simp only [hconv]; rw [hdec i] at hcount ⊢; omega)
      simp only [hconv] at hih
      rw [hih, hcount]
      show Except.ok _ = Except.ok _
      congr 1
      rw [List.range_succ_eq_map, List.map_cons, List.map_map]
      congr 1
      · push_cast
        ring_nf
      · apply List.map_congr_left
        intro k _
        show Result.num (i + st + (k : ℚ) * st) = Result.num (i + (k + 1 : ℕ) * st)
        congr 1
        push_cast
        ring
    · have hnpos : ¬ 0 < ⌈(en - i) / st⌉ := fun h => hlt ((hlt_iff i).mpr h)
      have hc0 : (⌈(en - i) / st⌉).toNat = 0 := by omega
      rw [hunfold, decide_eq_false hlt, hc0]
      rfl

/-- C2 amended: `1,3(2)9,11` parses into the terms single 1, the stepped
run 3(2)9, single 9 (the end expression is re-used as the next pending
term), single 11, and evaluates to 1,3,5,7,9,11 — the bound 9 itself IS
emitted; within a stepped run the generated values are exactly the
progression strictly below the end bound. -/
theorem c2_amended_range_includes_end (st en : ℚ) (f : ℕ) (i : ℚ)
    (hst : 0 < st)
    (hf : (⌈ratDiv (ratSub en i) st⌉).toNat ≤ f) :
    (parseValueRange 50 (tokenise "1,3(2)9,11.")).map Prod.fst =
      .ok [RangeTerm.single (.number 1),
        RangeTerm.steprange (.number 3) (.number 2) (.number 9),
        RangeTerm.single (.number 9), RangeTerm.single (.number 11)] ∧
    (do
      let (vr, _) ← parseValueRange 50 (tokenise "1,3(2)9,11.")
      rangeEval 50 Joss.fresh [] vr) =
      .ok [Result.num 1, Result.num 3, Result.num 5, Result.num 7,
        Result.num 9, Result.num 11] ∧
    progAux (some st) (some en) (f+1) (some i) =
      .ok ((List.range (⌈ratDiv (ratSub en i) st⌉).toNat).map
        (fun k : ℕ => Result.num (i + (k : ℚ) * st))) :=
  ⟨rfl, rfl, progAux_pos_step_strict_below st en hst f i hf⟩

theorem c2_amended_witness :
    ((0 : ℚ) < 2 ∧ (⌈ratDiv (ratSub 9 3) 2⌉).toNat ≤ 10) ∧
    ((parseValueRange 50 (tokenise "1,3(2)9,11.")).map Prod.fst =
      .ok [RangeTerm.single (.number 1),
        RangeTerm.steprange (.number 3) (.number 2) (.number 9),
        RangeTerm.single (.number 9), RangeTerm.single (.number 11)] ∧
    (do
      let (vr, _) ← parseValueRange 50 (tokenise "1,3(2)9,11.")
      rangeEval 50 Joss.fresh [] vr) =
      .ok [Result.num 1, Result.num 3, Result.num 5, Result.num 7,
        Result.num 9, Result.num 11] ∧
    progAux (some 2) (some 9) (10+1) (some 3) =
      .ok ((List.range (⌈ratDiv (ratSub 9 3) 2⌉).toNat).map
        (fun k : ℕ => Result.num (3 + (k : ℚ) * 2)))) :=
  ⟨⟨by decide, by decide⟩,
    c2_amended_range_includes_end 2 9 10 3 (by decide) (by decide)⟩

/-! ## C1 machinery -/

theorem lookupAssoc_updateAssoc_self {α : Type} (m : List (String × α))
    (k : String) (v : α) : lookupAssoc (updateAssoc m k v) k = some v := by
  induction m with
  | nil => simp [updateAssoc, lookupAssoc]
  | cons hd tl ih =>
    obtain ⟨k', v'⟩ := hd
    by_cases h : k' = k
    · subst h
      simp [updateAssoc, lookupAssoc]
    · simp [updateAssoc, lookupAssoc, h, ih]

theorem lookupAssoc_updateAssoc_ne {α : Type} (m : List (String × α))
    (k k' : String) (v : α) (h : k ≠ k') :
    lookupAssoc (updateAssoc m k v) k' = lookupAssoc m k' := by
  induction m with
  | nil => simp [updateAssoc, lookupAssoc, h]
  | cons hd tl ih =>
    obtain ⟨k0, v0⟩ := hd
    by_cases h0 : k0 = k
    · subst h0
      simp [updateAssoc, lookupAssoc, h]
    · simp [updateAssoc, lookupAssoc, h0, ih]

theorem lookupAssoc_updateAssoc_isSome {α : Type} (m : List (String × α))
    (k k' : String) (v : α)
    (h : (lookupAssoc m k').isSome = true) :
    (lookupAssoc (updateAssoc m k v) k').isSome = true := by
  by_cases hk : k = k'
  · subst hk
    rw [lookupAssoc_updateAssoc_self]
    rfl
  · rw [lookupAssoc_updateAssoc_ne m k k' v hk]
    exact h

theorem mem_insertRev (q : Option ℚ) (fn y : String) (l : List String) :
    y ∈ insertRev q fn l ↔ y = fn ∨ y ∈ l := by
  induction l with
  | nil => simp [insertRev]
  | cons x xs ih =>
    by_cases h : jsltOpt (jsNumber x) q = true
    · simp only [insertRev, if_pos h]
      simp
    · simp only [insertRev, if_neg h]
      simp [ih]
      tauto

theorem jsltOpt_true (o1 o2 : Option ℚ) :
    jsltOpt o1 o2 = true ↔ ∃ a b, o1 = some a ∧ o2 = some b ∧ a < b := by
  cases o1 <;> cases o2 <;> simp [jsltOpt]

theorem pairwise_insertRev (fn : String) (l : List String)
    (hl : l.Pairwise (fun x y => jsltOpt (jsNumber x) (jsNumber y) = false)) :
    (insertRev (jsNumber fn) fn l).Pairwise
      (fun x y => jsltOpt (jsNumber x) (jsNumber y) = false) := by
  induction l with
  | nil => simp [insertRev]
  | cons x xs ih =>
    rw [List.pairwise_cons] at hl
    obtain ⟨hx, hxs⟩ := hl
    by_cases h : jsltOpt (jsNumber x) (jsNumber fn) = true
    · rw [insertRev, if_pos h]
      obtain ⟨a, b, ha, hb, hab⟩ := (jsltOpt_true _ _).mp h
      refine List.Pairwise.cons ?_ (List.Pairwise.cons hx hxs)
      intro z hz
      rcases List.mem_cons.mp hz with hz | hz
      · subst hz
        simp [jsltOpt, ha, hb]
        linarith
      · have hxz := hx z hz
        cases hz2 : jsNumber z with
        | none => simp [jsltOpt, hb, hz2]
        | some cz =>
          rw [ha, hz2] at hxz
          simp [jsltOpt] at hxz
          simp [jsltOpt, hb, hz2]
          linarith
    · rw [insertRev, if_neg h]
      refine List.Pairwise.cons ?_ (ih hxs)
      intro z hz
      rcases (mem_insertRev _ _ _ _).mp hz with hz | hz
      · subst hz
        exact Bool.not_eq_true _ ▸ h
      · exact hx z hz

theorem noDot_append_inj (l1 l2 l3 l4 : List Char)
    (h1 : '.' ∉ l1) (h3 : '.' ∉ l3)
    (h : l1 ++ '.' :: l2 = l3 ++ '.' :: l4) : l1 = l3 ∧ l2 = l4 := by
  induction l1 generalizing l3 with
  | nil =>
    cases l3 with
    | nil => simpa using h
    | cons c l3' =>
      simp only [List.nil_append, List.cons_append, List.cons.injEq] at h
      exact absurd (h.1 ▸ List.mem_cons_self c l3') h3
  | cons c l1' ih =>
    cases l3 with
    | nil =>
      simp only [List.nil_append, List.cons_append, List.cons.injEq] at h
      exact absurd (h.1 ▸ List.mem_cons_self c l1') h1
    | cons c' l3' =>
      simp only [List.cons_append, List.cons.injEq] at h
      obtain ⟨hc, hrest⟩ := h
      have h1' : '.' ∉ l1' := fun hm => h1 (List.mem_cons_of_mem c hm)
      have h3' : '.' ∉ l3' := fun hm => h3 (List.mem_cons_of_mem c' hm)
      obtain ⟨he1, he2⟩ := ih l3' h1' h3' hrest
      exact ⟨by rw [hc, he1], he2⟩

theorem fullName_inj (p s p' s' : String)
    (hp : '.' ∉ p.data) (hp' : '.' ∉ p'.data)
    (h : p ++ "." ++ s = p' ++ "." ++ s') : p = p' ∧ s = s' := by
  have hd : p.data ++ '.' :: s.data = p'.data ++ '.' :: s'.data := by
    have h2 := congrArg String.data h
    simpa [String.data_append] using h2
  obtain ⟨he1, he2⟩ := noDot_append_inj p.data s.data p'.data s'.data hp hp' hd
  constructor
  · cases p
    cases p'
    exact congrArg String.mk (by simpa using he1)
  · cases s
    cases s'
    exact congrArg String.mk (by simpa using he2)

theorem setStep_prev_some (j : Joss) (part stepName : String) (c c0 : Command)
    (h : lookupAssoc j.program (part ++ "." ++ stepName) = some c0) :
    j.setStep part stepName c =
      { j with program := updateAssoc j.program (part ++ "." ++ stepName) c } := by
  simp only [Joss.setStep]
  rw [h]

theorem setStep_prev_none (j : Joss) (part stepName : String) (c : Command)
    (h : lookupAssoc j.program (part ++ "." ++ stepName) = none) :
    j.setStep part stepName c =
      { j with
        program := updateAssoc j.program (part ++ "." ++ stepName) c,
        programParts := updateAssoc j.programParts part
          (insertStep (jsNumber (part ++ "." ++ stepName))
            (part ++ "." ++ stepName)
            ((lookupAssoc j.programParts part).getD [])) } := by
  simp only [Joss.setStep]
  rw [h]

theorem StoreInv_setStep (j : Joss) (part stepName : String) (c : Command)
    (hj : StoreInv j)
    (hn : (jsNumber (part ++ "." ++ stepName)).isSome = true) :
    StoreInv (j.setStep part stepName c) := by
  cases hprev : lookupAssoc j.program (part ++ "." ++ stepName) with
  | some c0 =>
    rw [setStep_prev_some j part stepName c c0 hprev]
    intro p keys hk
    obtain ⟨ho, hm⟩ := hj p keys hk
    exact ⟨ho, fun k hkmem => ⟨(hm k hkmem).1,
      lookupAssoc_updateAssoc_isSome _ _ _ _ (hm k hkmem).2⟩⟩
  | none =>
    rw [setStep_prev_none j part stepName c hprev]
    intro p keys hk
    by_cases hp : part = p
    · subst hp
      rw [lookupAssoc_updateAssoc_self] at hk
      injection hk with hk
      subst hk
      have hcurInv : stepsOrdered ((lookupAssoc j.programParts part).getD []) ∧
          ∀ k ∈ (lookupAssoc j.programParts part).getD [],
            (jsNumber k).isSome = true ∧
            (lookupAssoc j.program k).isSome = true := by
        cases hc : lookupAssoc j.programParts part with
        | none =>
          constructor
          · simp [stepsOrdered]
          · simp
        | some oldkeys => simpa using hj part oldkeys hc
      constructor
      · unfold stepsOrdered insertStep
        rw [List.reverse_reverse]
        exact pairwise_insertRev _ _ hcurInv.1
      · intro k hkmem
        have hk2 : k ∈ insertRev (jsNumber (part ++ "." ++ stepName))
            (part ++ "." ++ stepName)
            ((lookupAssoc j.programParts part).getD []).reverse := by
          unfold insertStep at hkmem
          simpa using hkmem
        rcases (mem_insertRev _ _ _ _).mp hk2 with hke | hke
        · subst hke
          refine ⟨hn, ?_⟩
          rw [lookupAssoc_updateAssoc_self]
          rfl
        · have hk3 := hcurInv.2 k (by simpa using hke)
          exact ⟨hk3.1, lookupAssoc_updateAssoc_isSome _ _ _ _ hk3.2⟩
    · rw [lookupAssoc_updateAssoc_ne _ _ _ _ hp] at hk
      obtain ⟨ho, hm⟩ := hj p keys hk
      exact ⟨ho, fun k hkmem => ⟨(hm k hkmem).1,
        lookupAssoc_updateAssoc_isSome _ _ _ _ (hm k hkmem).2⟩⟩

theorem StoreComplete_setStep (j : Joss) (part stepName : String) (c : Command)
    (hj : StoreComplete j)
    (hdp : '.' ∉ part.data) (hds : '.' ∉ stepName.data) :
    StoreComplete (j.setStep part stepName c) := by
  cases hprev : lookupAssoc j.program (part ++ "." ++ stepName) with
  | some c0 =>
    rw [setStep_prev_some j part stepName c c0 hprev]
    intro p s hp hs hsome
    by_cases hkey : p ++ "." ++ s = part ++ "." ++ stepName
    · exact hj p s hp hs (by rw [hkey, hprev]; rfl)
    · rw [lookupAssoc_updateAssoc_ne _ _ _ _ (fun h => hkey h.symm)] at hsome
      exact hj p s hp hs hsome
  | none =>
    rw [setStep_prev_none j part stepName c hprev]
    intro p s hp hs hsome
    by_cases hkey : p ++ "." ++ s = part ++ "." ++ stepName
    · obtain ⟨hpp, hss⟩ := fullName_inj p s part stepName hp hdp hkey
      subst hpp
      subst hss
      refine ⟨insertStep (jsNumber (p ++ "." ++ s)) (p ++ "." ++ s)
        ((lookupAssoc j.programParts p).getD []), ?_, ?_⟩
      · rw [lookupAssoc_updateAssoc_self]
      · unfold insertStep
        rw [List.mem_reverse]
        exact (mem_insertRev _ _ _ _).mpr (Or.inl rfl)
    · rw [lookupAssoc_updateAssoc_ne _ _ _ _ (fun h => hkey h.symm)] at hsome
      obtain ⟨keys, hk, hmem⟩ := hj p s hp hs hsome
      by_cases hpp : part = p
      · subst hpp
        refine ⟨insertStep (jsNumber (part ++ "." ++ stepName))
          (part ++ "." ++ stepName)
          ((lookupAssoc j.programParts part).getD []), ?_, ?_⟩
        · rw [lookupAssoc_updateAssoc_self]
        · have hcur : (lookupAssoc j.programParts part).getD [] = keys := by
            rw [hk]
            rfl
          rw [hcur]
          unfold insertStep
          rw [List.mem_reverse]
          exact (mem_insertRev _ _ _ _).mpr (Or.inr (by simpa using hmem))
      · refine ⟨keys, ?_, hmem⟩
        rw [lookupAssoc_updateAssoc_ne _ _ _ _ hpp]
        exact hk

theorem setStep_program_isSome_mono (j : Joss) (part stepName : String)
    (c : Command) (k : String)
    (h : (lookupAssoc j.program k).isSome = true) :
    (lookupAssoc (j.setStep part stepName c).program k).isSome = true := by
  cases hprev : lookupAssoc j.program (part ++ "." ++ stepName) with
  | some c0 =>
    rw [setStep_prev_some _ _ _ _ _ hprev]
    exact lookupAssoc_updateAssoc_isSome _ _ _ _ h
  | none =>
    rw [setStep_prev_none _ _ _ _ hprev]
    exact lookupAssoc_updateAssoc_isSome _ _ _ _ h

theorem setStep_program_self_isSome (j : Joss) (part stepName : String)
    (c : Command) :
    (lookupAssoc (j.setStep part stepName c).program
      (part ++ "." ++ stepName)).isSome = true := by
  cases hprev : lookupAssoc j.program (part ++ "." ++ stepName) with
  | some c0 =>
    rw [setStep_prev_some _ _ _ _ _ hprev]
    rw [lookupAssoc_updateAssoc_self]
    rfl
  | none =>
    rw [setStep_prev_none _ _ _ _ hprev]
    rw [lookupAssoc_updateAssoc_self]
    rfl

theorem applyRegs_program_isSome_mono (regs : List Registration) :
    ∀ (j : Joss) (k : String),
      (lookupAssoc j.program k).isSome = true →
      (lookupAssoc (applyRegs regs j).program k).isSome = true := by
  induction regs with
  | nil => intro j k h; exact h
  | cons r rs ih =>
    intro j k h
    exact ih _ k (setStep_program_isSome_mono j r.part r.step r.command k h)

theorem applyRegs_inv (regs : List Registration) :
    ∀ j : Joss,
      (∀ r ∈ regs, (jsNumber (r.part ++ "." ++ r.step)).isSome = true) →
      (∀ r ∈ regs, '.' ∉ r.part.data ∧ '.' ∉ r.step.data) →
      StoreInv j → StoreComplete j →
      StoreInv (applyRegs regs j) ∧ StoreComplete (applyRegs regs j) ∧
      ∀ r ∈ regs, (lookupAssoc (applyRegs regs j).program
        (r.part ++ "." ++ r.step)).isSome = true := by
  induction regs with
  | nil =>
    intro j _ _ h1 h2
    exact ⟨h1, h2, by simp⟩
  | cons r rs ih =>
    intro j hnum hdot h1 h2
    have hnr := hnum r (by simp)
    have hdr := hdot r (by simp)
    have h1' := StoreInv_setStep j r.part r.step r.command h1 hnr
    have h2' := StoreComplete_setStep j r.part r.step r.command h2 hdr.1 hdr.2
    have hrec := ih (j.setStep r.part r.step r.command)
      (fun r' hr' => hnum r' (by simp [hr']))
      (fun r' hr' => hdot r' (by simp [hr'])) h1' h2'
    refine ⟨hrec.1, hrec.2.1, ?_⟩
    intro r' hr'
    rcases List.mem_cons.mp hr' with he | he
    · subst he
      exact applyRegs_program_isSome_mono rs _ _
        (setStep_program_self_isSome j r'.part r'.step r'.command)
    · exact hrec.2.2 r' he

/-- C1: starting from a fresh environment and registering any sequence of
stored commands (any order, re-registrations included; parts and steps are
the dot-free numeric literals `split('.')` produces), every part's key list
is in ascending numeric order, each of its keys is backed by a stored
command, every registration's key appears in its part's list, and
`Do part N` (no modifier) runs exactly the steps of that list in that
order. -/
theorem c1_do_part_ascending_numeric_order (regs : List Registration)
    (hnum : ∀ r ∈ regs, (jsNumber (r.part ++ "." ++ r.step)).isSome = true)
    (hdot : ∀ r ∈ regs, '.' ∉ r.part.data ∧ '.' ∉ r.step.data)
    (p : String) (keys : List String)
    (hkeys : lookupAssoc (applyRegs regs Joss.fresh).programParts p =
      some keys) :
    List.Pairwise (fun a b => (jsNumber a).getD 0 ≤ (jsNumber b).getD 0)
      keys ∧
    (∀ k ∈ keys,
      (lookupAssoc (applyRegs regs Joss.fresh).program k).isSome = true) ∧
    (∀ r ∈ regs, r.part = p → (r.part ++ "." ++ r.step) ∈ keys) ∧
    (∀ rs, evalDoPlain rs p none (applyRegs regs Joss.fresh) =
      foldSteps rs (applyRegs regs Joss.fresh) keys) := by
  obtain ⟨hinv, hcomp, hprog⟩ := applyRegs_inv regs Joss.fresh hnum hdot
    (by intro p' keys' h; simp [Joss.fresh, lookupAssoc] at h)
    (by intro p' s' _ _ h; simp [Joss.fresh, lookupAssoc] at h)
  obtain ⟨horder, hmem⟩ := hinv p keys hkeys
  refine ⟨?_, fun k hk => (hmem k hk).2, ?_, fun rs => ?_⟩
  · have h2 : keys.Pairwise
        (fun a b => jsltOpt (jsNumber b) (jsNumber a) = false) :=
      List.pairwise_reverse.mp horder
    refine List.Pairwise.imp_of_mem ?_ h2
    intro a b ha hb hr
    obtain ⟨qa, hqa⟩ := Option.isSome_iff_exists.mp (hmem a ha).1
    obtain ⟨qb, hqb⟩ := Option.isSome_iff_exists.mp (hmem b hb).1
    rw [hqa, hqb] at hr ⊢
    simp only [Option.getD_some]
    simp only [jsltOpt, decide_eq_false_iff_not] at hr
    exact le_of_not_lt hr
  · intro r hr hpart
    have hs := hprog r hr
    obtain ⟨keys', hk', hmem'⟩ := hcomp r.part r.step (hdot r hr).1
      (hdot r hr).2 hs
    rw [hpart, hkeys] at hk'
    injection hk' with hk'
    rw [hk']
    exact hmem'
  · simp [evalDoPlain, hkeys]
theorem c1_witness :
    ((∀ r ∈ [(⟨"1", "2", ⟨.noop, none⟩⟩ : Registration),
        ⟨"1", "1", ⟨.noop, none⟩⟩, ⟨"1", "15", ⟨.noop, none⟩⟩,
        ⟨"1", "2", ⟨.typeV [.quoted "x"], none⟩⟩],
        (jsNumber (r.part ++ "." ++ r.step)).isSome = true) ∧
      (∀ r ∈ [(⟨"1", "2", ⟨.noop, none⟩⟩ : Registration),
        ⟨"1", "1", ⟨.noop, none⟩⟩, ⟨"1", "15", ⟨.noop, none⟩⟩,
        ⟨"1", "2", ⟨.typeV [.quoted "x"], none⟩⟩],
        '.' ∉ r.part.data ∧ '.' ∉ r.step.data) ∧
      lookupAssoc (applyRegs [(⟨"1", "2", ⟨.noop, none⟩⟩ : Registration),
        ⟨"1", "1", ⟨.noop, none⟩⟩, ⟨"1", "15", ⟨.noop, none⟩⟩,
        ⟨"1", "2", ⟨.typeV [.quoted "x"], none⟩⟩] Joss.fresh).programParts
        "1" = some ["1.1", "1.15", "1.2"]) ∧
    (List.Pairwise (fun a b => (jsNumber a).getD 0 ≤ (jsNumber b).getD 0)
        ["1.1", "1.15", "1.2"] ∧
      (∀ k ∈ ["1.1", "1.15", "1.2"],
        (lookupAssoc (applyRegs [(⟨"1", "2", ⟨.noop, none⟩⟩ : Registration),
          ⟨"1", "1", ⟨.noop, none⟩⟩, ⟨"1", "15", ⟨.noop, none⟩⟩,
          ⟨"1", "2", ⟨.typeV [.quoted "x"], none⟩⟩]
          Joss.fresh).program k).isSome = true) ∧
      (∀ r ∈ [(⟨"1", "2", ⟨.noop, none⟩⟩ : Registration),
        ⟨"1", "1", ⟨.noop, none⟩⟩, ⟨"1", "15", ⟨.noop, none⟩⟩,
        ⟨"1", "2", ⟨.typeV [.quoted "x"], none⟩⟩], r.part = "1" →
          (r.part ++ "." ++ r.step) ∈ ["1.1", "1.15", "1.2"]) ∧
      (∀ rs, evalDoPlain rs "1" none
          (applyRegs [(⟨"1", "2", ⟨.noop, none⟩⟩ : Registration),
            ⟨"1", "1", ⟨.noop, none⟩⟩, ⟨"1", "15", ⟨.noop, none⟩⟩,
            ⟨"1", "2", ⟨.typeV [.quoted "x"], none⟩⟩] Joss.fresh) =
        foldSteps rs (applyRegs [(⟨"1", "2", ⟨.noop, none⟩⟩ : Registration),
          ⟨"1", "1", ⟨.noop, none⟩⟩, ⟨"1", "15", ⟨.noop, none⟩⟩,
          ⟨"1", "2", ⟨.typeV [.quoted "x"], none⟩⟩] Joss.fresh)
          ["1.1", "1.15", "1.2"])) :=
  ⟨⟨by decide, by decide, rfl⟩,
    c1_do_part_ascending_numeric_order
      [(⟨"1", "2", ⟨.noop, none⟩⟩ : Registration),
        ⟨"1", "1", ⟨.noop, none⟩⟩, ⟨"1", "15", ⟨.noop, none⟩⟩,
        ⟨"1", "2", ⟨.typeV [.quoted "x"], none⟩⟩]
      (by decide) (by decide) "1" ["1.1", "1.15", "1.2"] rfl⟩
